import Mathlib

/-!
A shallow embedding of the db.js embedded key-value storage engine
(class `DBjs` in `dbjs.js`) and proofs about its operations.

Modelling conventions, used throughout:

- JS objects (`this.index`, `this.rindex`, `this.meta.archive`) are modelled as
  insertion-ordered association lists over their own properties; `m[k]` lookup
  is `jget`, `m[k] = v` assignment is `jsSet`.
- JS arrays are Lean lists; `this.cache` is newest-first, exactly as in the
  source (`unshift` is `List.cons`).
- Values are an arbitrary type `V`; `JSON.stringify` of a value is abstracted
  by a function `serLen : V → Option Nat` giving the length of the serialized
  string, `none` when the value does not stringify to a string (exception or
  `undefined`), which is all `_check_value` observes about it.
- File names: the active cache file is named `<ms-timestamp>.json` and its
  archived version `<prefix><ms-timestamp>.json`; both are identified here by
  the millisecond timestamp as a `Nat`.  The source compares names with
  `a.indexOf(b) !== -1` where `a` is a prefixed name and `b` an unprefixed
  name; for the equal-width timestamp names the engine creates, that substring
  test succeeds exactly on the matching timestamp, so it is modelled as
  equality of the timestamps.
- The archived segment files on disk are the `files` field, an association
  list from file name to parsed contents; `meta.archive` is the `archive`
  field.  Directory listing plus the descending sort of `_getFiles` is
  `getFilesNames`.
- Debug-only state (the four cache-hit counters, the log file) and the
  busy-wait `_persist_lock` (operations are interleaved atomically in this
  single-threaded model) are not modelled: they do not influence the value or
  state produced by any operation.
- The rotation trigger of `_persist` compares a rounded floating-point
  megabyte size and an elapsed wall-clock time with the configured thresholds;
  the two boolean outcomes of those comparisons (`space_exceeded`,
  `time_exceeded`) are parameters of the modelled `persist`, and the fresh
  timestamp name for the new cache file is the parameter `new_name`.
-/

namespace DbJs

/-- JS object own-property lookup `m[k]`: the value of the first binding of
key `k` in the association list, `none` when absent (JS `undefined`). -/
def jget {κ α : Type} [DecidableEq κ] (m : List (κ × α)) (k : κ) : Option α :=
  (m.find? (fun q => decide (q.1 = k))).map Prod.snd

/-- JS object assignment `m[k] = v`: overwrite the binding in place when the
key is present, append a new binding otherwise. -/
def jsSet {κ α : Type} [DecidableEq κ] (m : List (κ × α)) (k : κ) (v : α) : List (κ × α) :=
  if (jget m k).isSome then m.map (fun q => if q.1 = k then (k, v) else q)
  else m ++ [(k, v)]

/-- JS array element assignment `l[i] = v` as used at the guarded call sites
of the source (`set`, `_update_file`), where `0 ≤ i ≤ l.length` always holds:
in-range assignment overwrites, `i = l.length` appends.  An index beyond the
length would create a sparse array in JS; the guards exclude it, and it is
modelled as a no-op. -/
def jsArraySet {α : Type} (l : List α) (i : Nat) (v : α) : List α :=
  if i < l.length then l.set i v
  else if i = l.length then l ++ [v]
  else l

/-- JS array read `l[i]` with a possibly negative index: any index outside
`[0, l.length)` yields `undefined` (`none`). -/
def jsGetArr {α : Type} (l : List α) (i : Int) : Option α :=
  if 0 ≤ i then l.get? i.toNat else none

/-- JS `Array.prototype.slice(s, e)` as used at the call sites of `getn`,
which are reached only with `0 ≤ s ≤ e`: the elements at indices
`[s, min e l.length)`. -/
def jsSlice {α : Type} (l : List α) (s e : Int) : List α :=
  (l.take e.toNat).drop s.toNat

/-- A value as the engine's read paths return it: a stored value, JS
`undefined`, or JS `null`.  `get` can produce all three: `undefined` for
rejected or absent keys, `null` from `_load_from_file` when the recorded
segment file does not exist. -/
inductive JsValue (V : Type) where
  | val (v : V)
  | undef
  | nullv
deriving DecidableEq

/-- The property names every plain JS object (an object literal or
`JSON.parse` output) inherits from `Object.prototype`.  A bracket read of
one of these names on an index object that does not have it as an own
property yields the inherited member — a function, or the prototype object
for `__proto__` — which is truthy but carries none of the entry fields. -/
def objectProtoKeys : List String :=
  ["constructor", "hasOwnProperty", "isPrototypeOf", "propertyIsEnumerable",
   "toLocaleString", "toString", "valueOf", "__defineGetter__",
   "__defineSetter__", "__lookupGetter__", "__lookupSetter__", "__proto__"]

/-- Outcome of the bracket read `o[k]` on a plain JS object: an own property
with its value, an inherited truthy `Object.prototype` member, or
`undefined`. -/
inductive JsProp (α : Type) where
  | own (a : α)
  | inherited
  | absent
deriving DecidableEq

/-- The bracket read `o[k]` including the prototype chain: the own property
when present, otherwise the inherited `Object.prototype` member for the
built-in names, otherwise `undefined`. -/
def jsRead {α : Type} (m : List (String × α)) (k : String) : JsProp α :=
  match jget m k with
  | some a => JsProp.own a
  | none => if k ∈ objectProtoKeys then JsProp.inherited else JsProp.absent

/-- An argument passed as a key: either a JS string or any non-string value.
All non-string values behave identically in the engine because
`_check_key` rejects them before any other use (`typeof key !== 'string'`). -/
inductive JSKey where
  | str (s : String)
  | nonstr
deriving DecidableEq

/-- The configuration fields the modelled operations consult.  The remaining
fields of the source configuration (paths, intervals, thresholds, the file
name separator) govern I/O, scheduling and logging; the rotation thresholds
enter the model through the boolean trigger parameters of `persist`. -/
structure Config where
  max_key_size_bytes : Nat
  max_value_size_bytes : Nat
deriving DecidableEq

/-- An entry of the primary index `this.index`: `i` is the global sequence
number, `f` the (timestamp of the) cache file that held the key at insertion
time, `c` the insertion timestamp in milliseconds. -/
structure IndexEntry where
  i : Nat
  f : Nat
  c : Nat
deriving DecidableEq

/-- The in-memory state of a `DBjs` instance together with the archived
segment files of its database directory. -/
structure DB (V : Type) where
  cache : List V
  index : List (String × IndexEntry)
  rindex : List (Nat × String)
  archive : List (Nat × Nat)
  files : List (Nat × List V)
  cache_file_name : Nat
deriving DecidableEq

variable {V : Type}

/-- A fresh instance over an empty database directory; `c0` is the timestamp
baked into the name of the newly created cache file. -/
def initDB (c0 : Nat) : DB V :=
  { cache := [], index := [], rindex := [], archive := [], files := [],
    cache_file_name := c0 }

/-- Source `index_size()`: `Object.keys(this.index).length`. -/
def index_size (db : DB V) : Nat := db.index.length

/-- Source `cache_size()`: `this.cache.length`. -/
def cache_size (db : DB V) : Nat := db.cache.length

/-- Source `rindex_size()`: `Object.keys(this.rindex).length`. -/
def rindex_size (db : DB V) : Nat := db.rindex.length

/-- Source `_check_key`: `-1` for a non-string or oversized key, `1`
otherwise.  Note the source accepts the empty string: only
`typeof key !== 'string'` and `key.length > max_key_size_bytes` reject. -/
def check_key (cfg : Config) : JSKey → Int
  | JSKey.str s => if s.length > cfg.max_key_size_bytes then -1 else 1
  | JSKey.nonstr => -1

/-- Source `_check_value`: `-1` when `JSON.stringify` throws or does not
return a string (`serLen v = none`), or when the serialized length exceeds
`max_value_size_bytes`; `1` otherwise. -/
def check_value (cfg : Config) (serLen : V → Option Nat) (v : V) : Int :=
  match serLen v with
  | none => -1
  | some n => if n > cfg.max_value_size_bytes then -1 else 1

/-- Source `_get_memory_cache_index`: for a key with an own index entry,
`cache_index = index_size - (seq + 1)`; return it when it is smaller than the
cache length (the entry is still resident in memory), `-1` otherwise.  For a
truthy inherited member the `i` field is `undefined`, the comparison is with
`NaN` and therefore false, so the function falls through to `-1`, exactly as
for an absent key. -/
def get_memory_cache_index (db : DB V) (key : String) : Int :=
  match jsRead db.index key with
  | JsProp.own e =>
      let cache_index : Int := (index_size db : Int) - ((e.i : Int) + 1)
      if cache_index < (cache_size db : Int) then cache_index else -1
  | JsProp.inherited => -1
  | JsProp.absent => -1

/-- The loop of source `_get_archived_index`: sum the catalog sizes of the
archive entries strictly before the entry for file `f` (the whole sum when
`f` has no entry, mirroring a loop that never breaks). -/
def archive_offset : List (Nat × Nat) → Nat → Nat
  | [], _ => 0
  | q :: rest, f => if q.1 = f then 0 else q.2 + archive_offset rest f

/-- Source `_get_archived_index(index, file, length)`:
`(length - 1) - (index - offset)` with `offset` the catalog sizes of the
segments archived strictly before `file`. -/
def get_archived_index (archive : List (Nat × Nat)) (i f len : Nat) : Int :=
  ((len : Int) - 1) - ((i : Int) - (archive_offset archive f : Int))

/-- Source `_load_from_file`: read the archived file recorded for the key
and return the element at the computed in-file position — `undefined` for an
out-of-range position, `null` when the file does not exist.  For a truthy
inherited member the recorded name is `undefined`, so the path
`<prefix>undefined` never exists (the engine only ever creates timestamp
names) and the result is `null`.  The function is only called when
`this.index[key]` is truthy; the `absent` arm (where the source would throw
a TypeError dereferencing `undefined`) is unreachable from `get` and
modelled as `null`. -/
def load_from_file (db : DB V) (key : String) : JsValue V :=
  match jsRead db.index key with
  | JsProp.own e =>
      match jget db.files e.f with
      | some parsed =>
          match jsGetArr parsed (get_archived_index db.archive e.i e.f parsed.length) with
          | some v => JsValue.val v
          | none => JsValue.undef
      | none => JsValue.nullv
  | JsProp.inherited => JsValue.nullv
  | JsProp.absent => JsValue.nullv

/-- Source `_update_file`: overwrite the slot of an archived key in its
segment file and write the file back; no change when the file is missing or
the computed position fails the `0 ≤ i ≤ length` guard.  For a truthy
inherited member the looked-up file name is `undefined`, no such file
exists, and nothing changes. -/
def update_file (db : DB V) (key : String) (v : V) : DB V :=
  match jsRead db.index key with
  | JsProp.own e =>
      match jget db.files e.f with
      | some parsed =>
          let fi := get_archived_index db.archive e.i e.f parsed.length
          if 0 ≤ fi ∧ fi ≤ (parsed.length : Int) then
            { db with files := jsSet db.files e.f (jsArraySet parsed fi.toNat v) }
          else db
      | none => db
  | JsProp.inherited => db
  | JsProp.absent => db

/-- Source `set(key, value)`: validate, then either update the key in the
memory cache or in its archived file, or insert a new entry (prepend the
value to the cache, record `seq = index_size`, the active cache file and the
timestamp in the primary index, and the inverse binding in the order
index). -/
def set (cfg : Config) (serLen : V → Option Nat) (db : DB V) (now : Nat)
    (key : JSKey) (v : V) : DB V × Bool :=
  if check_key cfg key ≠ 1 then (db, false)
  else if check_value cfg serLen v ≠ 1 then (db, false)
  else
    match key with
    | JSKey.nonstr => (db, false)
    | JSKey.str k =>
        match jsRead db.index k with
        | JsProp.absent =>
            let i := index_size db
            ({ db with
                cache := v :: db.cache,
                index := jsSet db.index k { i := i, f := db.cache_file_name, c := now },
                rindex := jsSet db.rindex i k }, true)
        | _ =>
            -- `if (this.index[key])` is truthy: an own entry, or an inherited
            -- `Object.prototype` member (for which `_get_memory_cache_index`
            -- returns `-1` and `_update_file` changes nothing, yet `set`
            -- still reports success)
            let ci := get_memory_cache_index db k
            if ci ≠ -1 then
              ({ db with cache :=
                  if 0 ≤ ci ∧ ci ≤ (db.cache.length : Int) then
                    jsArraySet db.cache ci.toNat v
                  else db.cache }, true)
            else (update_file db k v, true)

/-- Source `get(key)`: `undefined` for an invalid key or a key on which
`this.index[key]` is falsy; otherwise the cached value when resident, else
whatever `_load_from_file` produces.  A valid key that is an
`Object.prototype` name passes the truthiness test via the prototype chain
even when it was never inserted, and then comes back as `null` through the
missing-file path of `_load_from_file`. -/
def get (cfg : Config) (db : DB V) (key : JSKey) : JsValue V :=
  if check_key cfg key ≠ 1 then JsValue.undef
  else
    match key with
    | JSKey.nonstr => JsValue.undef
    | JSKey.str k =>
        match jsRead db.index k with
        | JsProp.absent => JsValue.undef
        | _ =>
            let ci := get_memory_cache_index db k
            if ci ≠ -1 then
              match jsGetArr db.cache ci with
              | some v => JsValue.val v
              | none => JsValue.undef
            else load_from_file db k

/-- Source `_persist`: when a threshold fired and the cache is non-empty,
archive the current cache file (record its item count in `meta.archive`, move
its contents to the archived files) and start a fresh empty cache file named
`new_name`; otherwise leave the state unchanged (`_flush` only rewrites disk
copies of the unchanged in-memory state). -/
def persist (db : DB V) (space_exceeded time_exceeded : Bool) (new_name : Nat) : DB V :=
  if (space_exceeded || time_exceeded) && decide (0 < cache_size db) then
    { db with
        archive := jsSet db.archive db.cache_file_name (cache_size db),
        files := jsSet db.files db.cache_file_name db.cache,
        cache := [],
        cache_file_name := new_name }
  else db

/-- Insertion step of the descending sort used by `_getFiles` (its comparator
is `time_b - time_a`, i.e. larger timestamps first). -/
def insertDesc (x : Nat) : List Nat → List Nat
  | [] => [x]
  | y :: ys => if y ≤ x then x :: y :: ys else y :: insertDesc x ys

/-- Descending sort of file-name timestamps, modelling the
`filtered.sort(...)` call of `_getFiles`. -/
def sortDesc (l : List Nat) : List Nat := l.foldr insertDesc []

/-- Source `_getFiles(false)`: the archived files of the database directory,
most recently created first. -/
def getFilesNames (db : DB V) : List Nat := sortDesc (db.files.map Prod.fst)

/-- The file-collection loop of `getn`: push each file, stopping after (and
including) the first whose name matches the target. -/
def take_until_incl (target : Nat) : List Nat → List Nat
  | [] => []
  | f :: rest => if f = target then [f] else f :: take_until_incl target rest

/-- The `while (start <= end)` loop of source `_binary_search`.  The `fuel`
argument bounds the number of iterations; it strictly exceeds the initial
value of the measure `end - start + 1`, which decreases on every iteration,
so the loop guard and not the fuel ends the recursion (`bs_go_fuel` below).
An out-of-range probe (`sortedArray[middle]` is `undefined` in JS) fails both
the `===` and the `<` comparison and so moves `end`. -/
def bs_go (arr : List Int) (key : Int) : Nat → Int → Int → Int × Int
  | 0, start, stop => (start, stop)
  | fuel + 1, start, stop =>
      if start ≤ stop then
        let middle := Int.fdiv (start + stop) 2
        match jsGetArr arr middle with
        | some x =>
            if x = key then (start, stop)
            else if x < key then bs_go arr key fuel (middle + 1) stop
            else bs_go arr key fuel start (middle - 1)
        | none => bs_go arr key fuel start (middle - 1)
      else (start, stop)

/-- Source `_binary_search(sortedArray, key)`: run the loop from
`start = 0`, `end = length - 1` and return the final `[start, end]` pair. -/
def binary_search (arr : List Int) (key : Int) : Int × Int :=
  bs_go arr key (arr.length + 1) 0 ((arr.length : Int) - 1)

/-- Canonical array-index property keys of a JS object: a non-empty digit
string with no leading zero (other than `"0"` itself) denoting a value below
`2^32 - 1`.  JS enumerates such keys before all others, in ascending numeric
order. -/
def keyNum (s : String) : Nat :=
  s.toList.foldl (fun n c => 10 * n + (c.toNat - 48)) 0

def isArrayIndexKey (s : String) : Bool :=
  match s.toList with
  | [] => false
  | c :: cs =>
      (c :: cs).all Char.isDigit &&
      (decide (c ≠ '0') || cs.isEmpty) &&
      decide (keyNum s < 4294967295)

/-- Ascending insertion step for sorting bindings by numeric key value. -/
def insertAscKey {α : Type} (q : String × α) : List (String × α) → List (String × α)
  | [] => [q]
  | r :: rs => if keyNum q.1 < keyNum r.1 then q :: r :: rs else r :: insertAscKey q rs

/-- Sort bindings ascending by the numeric value of their keys. -/
def sortAscKeys {α : Type} (m : List (String × α)) : List (String × α) :=
  m.foldr insertAscKey []

/-- The order `for (let key in o)` visits the own enumerable properties of a
plain JS object: array-index-like keys first, in ascending numeric order,
then the remaining keys in insertion order. -/
def jsEnumOrder {α : Type} (m : List (String × α)) : List (String × α) :=
  sortAscKeys (m.filter (fun q => isArrayIndexKey q.1)) ++
    m.filter (fun q => !isArrayIndexKey q.1)

/-- Source `_binary_search_index`: the `created_at` timestamps of the primary
index in the `for..in` enumeration order of its keys.  This equals seq
order only when no array-index-like key disturbs it: a store holding keys
such as `"1"` or `"4343"` is enumerated with those keys first, so the
searched array is not the seq-ordered (ascending) created_at sequence in
general. -/
def insertion_times (db : DB V) : List Int :=
  (jsEnumOrder db.index).map (fun q => ((q.2.c : Int)))

/-- Source `_binary_search_index(ts)`: the `end` component of the binary
search over the insertion timestamps. -/
def binary_search_index (db : DB V) (ts : Int) : Int :=
  (binary_search (insertion_times db) ts).2

/-- Source `getn(index_range, time_range)`.  Defaults serve the memory cache;
a `time_range` overrides an `index_range`; bounds overshooting the index size
reset the range to `[0, size]`; invalid bounds (after that reset) give `[]`;
the result is served from the cache alone when possible, otherwise from the
cache concatenated with archived files up to the one owning the entry at
`size - end_index`.  The two `[]` fallbacks at the bottom correspond to
states the engine cannot reach (in the source the first would dereference
`undefined` and the second reads an undeclared variable, both throwing). -/
def getn (db : DB V) (index_range time_range : Option (Int × Int)) : List V :=
  let size : Int := (index_size db : Int)
  let se0 : Int × Int :=
    match index_range with
    | some q => q
    | none => (0, (cache_size db : Int))
  let se1 : Int × Int :=
    match time_range with
    | some q => (binary_search_index db q.1 + 1, binary_search_index db q.2 + 1)
    | none => se0
  let se2 : Int × Int := if size < se1.2 ∨ size < se1.1 then (0, size) else se1
  if se2.1 < 0 ∨ se2.2 < 0 ∨ se2.2 < se2.1 then []
  else if se2.2 ≤ (db.cache.length : Int) then jsSlice db.cache se2.1 se2.2
  else
    match jget db.rindex (size - se2.2).toNat with
    | some key =>
        -- `if (key)`: falsy for the empty string (an accepted key); the
        -- source's else branch evaluates an undeclared variable and throws,
        -- modelled as the empty result
        if key = "" then []
        else
          match jsRead db.index key with
          | JsProp.own e =>
              let to_load := take_until_incl e.f (getFilesNames db)
              let retval :=
                db.cache ++ (to_load.map (fun f => (jget db.files f).getD [])).flatten
              jsSlice retval se2.1 se2.2
          | JsProp.inherited =>
              -- `up_to_file` is `undefined`, which matches no archived file
              -- name, so the loop loads every archived file
              let retval :=
                db.cache ++ ((getFilesNames db).map (fun f => (jget db.files f).getD [])).flatten
              jsSlice retval se2.1 se2.2
          | JsProp.absent => []
              -- the source dereferences `.f` of `undefined` and throws
    | none => []
      -- the source's else branch evaluates an undeclared variable and throws

/-- The first startup consistency check of `_consistency_checks`: when the
order index is non-empty, the sum of its integer keys must equal
`(n - 1) * n / 2`. -/
def rindex_check (keys : List Nat) : Bool :=
  if 0 < keys.length then
    decide (keys.sum = (keys.length - 1) * keys.length / 2)
  else true

/-- One pass of `filter` over a batch of parsed data (the cache or one
archived file): apply the evaluator to every truthy item, threading the
`results` accumulator; `none` models the evaluator throwing, upon which
`filter` returns the error string. -/
def filter_pass (truthy : V → Bool) (ev : V → List V → Option (List V)) :
    List V → List V → Option (List V)
  | [], results => some results
  | d :: ds, results =>
      if truthy d then
        match ev d results with
        | some r => filter_pass truthy ev ds r
        | none => none
      else filter_pass truthy ev ds results

/-- The file loop of source `filter`: for each archived file (newest first)
add its item count to `num`, run the evaluator over its items, and stop once
`num` has reached the limit. -/
def filter_files (dbfiles : List (Nat × List V)) (truthy : V → Bool)
    (ev : V → List V → Option (List V)) (limit : Int) :
    List Nat → Int → List V → Except String (List V)
  | [], _, results => Except.ok results
  | f :: rest, num, results =>
      let parsed := (jget dbfiles f).getD []
      let num2 := num + (parsed.length : Int)
      match filter_pass truthy ev parsed results with
      | some r2 =>
          if limit ≤ num2 then Except.ok r2
          else filter_files dbfiles truthy ev limit rest num2 r2
      | none => Except.error "eval threw"

/-- Source `filter(callback_str, limit)`.  The dynamic evaluation
`eval(callback_str)` of the caller-supplied code on each truthy item is
abstracted by `ev`, the denotation of that code as a transformer of the
`results` accumulator (`none` = the evaluated code threw, upon which the
source returns the error message string instead of results); `truthy` is the
JS truthiness test `if (data)` on values.  The cache is processed first, then
each archived file newest-first, stopping once the cumulative item count has
reached `limit`. -/
def filter (db : DB V) (truthy : V → Bool) (ev : V → List V → Option (List V))
    (limit : Int) : Except String (List V) :=
  match filter_pass truthy ev db.cache [] with
  | none => Except.error "eval threw"
  | some results =>
      let num : Int := (db.cache.length : Int)
      if limit ≤ num then Except.ok results
      else filter_files db.files truthy ev limit (getFilesNames db) num results

/-- A public mutating or reading operation of the engine, with the ambient
data each corresponding call obtains from the environment attached: the
wall-clock timestamp of a `set`, and for a checkpoint (`_persist`) the two
threshold comparisons plus the timestamp naming the replacement cache file
when a rotation happens. -/
inductive Op (V : Type) where
  | doSet (now : Nat) (key : JSKey) (v : V)
  | doGet (key : JSKey)
  | doGetn (index_range time_range : Option (Int × Int))
  | doPersist (space_exceeded time_exceeded : Bool) (new_name : Nat)

/-- State transition of one operation (`get` and `getn` do not change the
modelled state). -/
def applyOp (cfg : Config) (serLen : V → Option Nat) (db : DB V) : Op V → DB V
  | Op.doSet now key v => (set cfg serLen db now key v).1
  | Op.doGet _ => db
  | Op.doGetn _ _ => db
  | Op.doPersist sp tm nn => persist db sp tm nn

/-- Run a sequence of operations. -/
def run (cfg : Config) (serLen : V → Option Nat) (db : DB V) : List (Op V) → DB V
  | [] => db
  | op :: ops => run cfg serLen (applyOp cfg serLen db op) ops

/-- Well-formedness of an operation trace: the timestamp chosen as the name
of each replacement cache file is larger than the name of the file it
replaces.  This models the engine's reliance on `Date.now()` producing a
fresh, larger millisecond timestamp at each rotation (file names are how
`_getFiles` orders segments and how `meta.archive` keys them). -/
def trace_ok (cfg : Config) (serLen : V → Option Nat) (db : DB V) : List (Op V) → Bool
  | [] => true
  | op :: ops =>
      (match op with
       | Op.doPersist _ _ nn => decide (db.cache_file_name < nn)
       | _ => true)
      && trace_ok cfg serLen (applyOp cfg serLen db op) ops

/-- Total item count of the archived segments recorded in the catalog. -/
def sumSizes (a : List (Nat × Nat)) : Nat := (a.map Prod.snd).sum

/-- The archived segment holding global sequence number `j`, walking the
catalog oldest-first: segment `t` holds the `size_t` sequence numbers starting
at the sum of the sizes of the segments archived before it. -/
def seg_of : List (Nat × Nat) → Nat → Option Nat
  | [], _ => none
  | q :: rest, j => if j < q.2 then some q.1 else seg_of rest (j - q.2)

/-- The position a timestamp boundary is claimed to map to: the insertion
point in the ascending `created_at` sequence, with a boundary equal to a
stored timestamp resolving to the first matching position.  For a sorted
list both readings equal the number of elements strictly below the
boundary.  (This is the specification's description; the code's
`_binary_search_index` is compared against it.) -/
def claimedTimePos (arr : List Int) (t : Int) : Int :=
  ((arr.countP (fun x => decide (x < t)) : Nat) : Int)

/-- The created_at values in seq order — the array over which the claim says
the boundary search runs ("the ascending sequence of created_at values (by
seq order)").  The source's `_binary_search_index` actually searches
`insertion_times`, the `for..in` enumeration order, which differs from this
whenever an array-index-like key is present. -/
def seq_created_times (db : DB V) : List Int :=
  db.index.map (fun q => ((q.2.c : Int)))

/-- File traversal of the typed-predicate filter described by the
specification: per archived segment, add the item count, append the
selected values, stop once the count has reached the limit. -/
def filter_spec_files (dbfiles : List (Nat × List V)) (p : V → Bool) (limit : Int) :
    List Nat → Int → List V → List V
  | [], _, acc => acc
  | f :: rest, num, acc =>
      let parsed := (jget dbfiles f).getD []
      let num2 := num + (parsed.length : Int)
      let acc2 := acc ++ parsed.filter p
      if limit ≤ num2 then acc2
      else filter_spec_files dbfiles p limit rest num2 acc2

/-- The typed-predicate filter described by the specification: traverse the
cache first, then each archived segment newest-first, collecting the values
selected by the boolean predicate, stopping once the cumulative item count
has reached the limit (batch granularity, as in `scan`). -/
def filter_spec (db : DB V) (p : V → Bool) (limit : Int) : List V :=
  let base := db.cache.filter p
  if limit ≤ (db.cache.length : Int) then base
  else filter_spec_files db.files p limit (getFilesNames db) (db.cache.length : Int) base

/-- The denotation of a callback string that is a pure selecting predicate,
such as `if (p(data)) results.push(data)`: the evaluator appends the item to
the results exactly when the predicate holds. -/
def pureEv (p : V → Bool) : V → List V → Option (List V) :=
  fun v results => some (if p v then results ++ [v] else results)

/-- The denotation of the callback string `results = [999]` under `eval`:
caller-supplied code that ignores the item and overwrites the accumulator. -/
def hijackEv : Nat → List Nat → Option (List Nat) :=
  fun _ _ => some [999]

/-- The engine invariant, established by `initDB` and preserved by every
operation of a well-formed trace.  `maxk` is the configured maximum key
size. -/
structure Inv (maxk : Nat) (db : DB V) : Prop where
  idx_seq : ∀ p q, db.index.get? p = some q → q.2.i = p
  idx_nodup : (db.index.map Prod.fst).Nodup
  idx_klen : ∀ q ∈ db.index, q.1.length ≤ maxk
  rindex_eq : db.rindex = (db.index.map Prod.fst).enum
  cache_len : db.cache.length + sumSizes db.archive = db.index.length
  archive_files : db.archive = db.files.map (fun q => (q.1, q.2.length))
  names_lt : List.Chain' (fun a b => a < b) (db.archive.map Prod.fst ++ [db.cache_file_name])
  seg_assign : ∀ p q, db.index.get? p = some q →
      (p < sumSizes db.archive → seg_of db.archive p = some q.2.f) ∧
      (sumSizes db.archive ≤ p → q.2.f = db.cache_file_name)

/-- A default configuration (the source defaults) for concrete instances. -/
def cfg0 : Config := { max_key_size_bytes := 1024, max_value_size_bytes := 1048576 }

/-- A serialized-length function for concrete `Nat`-valued instances: every
value serializes to one character. -/
def serLen0 : Nat → Option Nat := fun _ => some 1

/-! Lemmas about the JS object model. -/

theorem jget_cons {κ α : Type} [DecidableEq κ] (q : κ × α) (m : List (κ × α)) (k : κ) :
    jget (q :: m) k = if q.1 = k then some q.2 else jget m k := by
  by_cases h : q.1 = k <;> simp [jget, List.find?_cons, h]

theorem jget_eq_none {κ α : Type} [DecidableEq κ] (m : List (κ × α)) (k : κ) :
    jget m k = none ↔ k ∉ m.map Prod.fst := by
  induction m with
  | nil => simp [jget]
  | cons q m ih =>
      rw [jget_cons]
      by_cases h : q.1 = k
      · simp [h]
      · simp only [if_neg h, ih, List.map_cons, List.mem_cons]
        constructor
        · intro hn hc
          rcases hc with hc | hc
          · exact h hc.symm
          · exact hn hc
        · intro hn hc
          exact hn (Or.inr hc)

theorem jget_mem {κ α : Type} [DecidableEq κ] {m : List (κ × α)} {k : κ} {a : α}
    (h : jget m k = some a) : (k, a) ∈ m := by
  induction m with
  | nil => simp [jget] at h
  | cons q m ih =>
      rw [jget_cons] at h
      by_cases hq : q.1 = k
      · simp only [if_pos hq, Option.some.injEq] at h
        have hqe : (k, a) = q := by rw [← hq, ← h]
        rw [hqe]
        exact List.mem_cons_self _ _
      · simp only [if_neg hq] at h
        exact List.mem_cons_of_mem _ (ih h)

theorem jget_mem_keys {κ α : Type} [DecidableEq κ] {m : List (κ × α)} {k : κ} {a : α}
    (h : jget m k = some a) : k ∈ m.map Prod.fst :=
  List.mem_map.mpr ⟨(k, a), jget_mem h, rfl⟩

theorem jget_append {κ α : Type} [DecidableEq κ] (m m2 : List (κ × α)) (k : κ) :
    jget (m ++ m2) k = (jget m k).orElse (fun _ => jget m2 k) := by
  simp [jget, List.find?_append]
  cases List.find? (fun q => decide (q.1 = k)) m <;> simp

theorem jget_map_overwrite {κ α : Type} [DecidableEq κ] (m : List (κ × α)) (k k2 : κ) (v : α)
    (h : k2 ≠ k) :
    jget (m.map (fun q => if q.1 = k then (k, v) else q)) k2 = jget m k2 := by
  induction m with
  | nil => simp
  | cons q m ih =>
      by_cases hq : q.1 = k
      · simp only [List.map_cons, if_pos hq]
        rw [jget_cons, jget_cons, hq, if_neg (fun hh => h hh.symm), if_neg (fun hh => h hh.symm)]
        exact ih
      · simp only [List.map_cons, if_neg hq]
        rw [jget_cons, jget_cons]
        by_cases hq2 : q.1 = k2
        · simp [hq2]
        · simp only [if_neg hq2]
          exact ih

theorem jget_map_overwrite_self {κ α : Type} [DecidableEq κ] (m : List (κ × α)) (k : κ) (v : α) :
    (jget m k).isSome = true →
      jget (m.map (fun q => if q.1 = k then (k, v) else q)) k = some v := by
  induction m with
  | nil => simp [jget]
  | cons q m ih =>
      intro hs
      by_cases hq : q.1 = k
      · simp [List.map_cons, if_pos hq, jget_cons]
      · rw [jget_cons, if_neg hq] at hs
        simpa [List.map_cons, if_neg hq, jget_cons, hq] using ih hs

theorem jsSet_of_none {κ α : Type} [DecidableEq κ] {m : List (κ × α)} {k : κ} (v : α)
    (h : jget m k = none) : jsSet m k v = m ++ [(k, v)] := by
  simp [jsSet, h]

theorem jget_jsSet_self {κ α : Type} [DecidableEq κ] (m : List (κ × α)) (k : κ) (v : α) :
    jget (jsSet m k v) k = some v := by
  unfold jsSet
  split
  · rename_i hs
    exact jget_map_overwrite_self m k v hs
  · rename_i hs
    rw [jget_append]
    have hn : jget m k = none := by
      cases h : jget m k with
      | none => rfl
      | some a => rw [h] at hs; simp at hs
    simp [hn, jget_cons]

theorem jget_jsSet_ne {κ α : Type} [DecidableEq κ] (m : List (κ × α)) (k k2 : κ) (v : α)
    (h : k2 ≠ k) : jget (jsSet m k v) k2 = jget m k2 := by
  unfold jsSet
  split
  · exact jget_map_overwrite m k k2 v h
  · rw [jget_append]
    cases hg : jget m k2 with
    | some a => simp
    | none =>
        have hne : ¬(k = k2) := fun hh => h hh.symm
        simp [jget_cons, jget, hne]

theorem jget_map_val {κ α β : Type} [DecidableEq κ] (g : α → β) (m : List (κ × α)) (k : κ) :
    jget (m.map (fun q => (q.1, g q.2))) k = (jget m k).map g := by
  induction m with
  | nil => simp [jget]
  | cons q m ih =>
      by_cases h : q.1 = k <;> simp [jget_cons, h, ih]

theorem jsSet_map_val {κ α β : Type} [DecidableEq κ] (g : α → β) (m : List (κ × α))
    (k : κ) (v : α) :
    (jsSet m k v).map (fun q => (q.1, g q.2)) =
      jsSet (m.map (fun q => (q.1, g q.2))) k (g v) := by
  unfold jsSet
  rw [jget_map_val]
  cases hg : jget m k with
  | none => simp
  | some a =>
      simp only [Option.map_some, Option.isSome_some, if_pos]
      rw [List.map_map, List.map_map]
      congr 1
      funext q
      by_cases h : q.1 = k <;> simp [h]

theorem jsSet_eq_self {κ α : Type} [DecidableEq κ] {m : List (κ × α)} {k : κ} {v : α}
    (hnd : (m.map Prod.fst).Nodup) (h : jget m k = some v) : jsSet m k v = m := by
  unfold jsSet
  rw [h]
  simp only [Option.isSome_some, if_pos]
  induction m with
  | nil => simp [jget] at h
  | cons q m ih =>
      rw [jget_cons] at h
      simp only [List.map_cons, List.nodup_cons] at hnd
      by_cases hq : q.1 = k
      · simp only [if_pos hq, Option.some.injEq] at h
        have hm : ∀ q2 ∈ m, q2.1 ≠ k := by
          intro q2 hq2 hk2
          exact hnd.1 (hq ▸ hk2 ▸ List.mem_map.mpr ⟨q2, hq2, rfl⟩)
        simp only [List.map_cons, if_pos hq]
        rw [← hq, ← h]
        congr 1
        conv_rhs => rw [← List.map_id m]
        refine List.map_congr_left ?_
        intro q2 hq2
        rw [if_neg (hq ▸ hm q2 hq2), id]
      · simp only [if_neg hq] at h
        simp only [List.map_cons, if_neg hq]
        rw [ih hnd.2 h]

theorem jsSet_keys_of_some {κ α : Type} [DecidableEq κ] {m : List (κ × α)} {k : κ} (v : α)
    (h : (jget m k).isSome) : (jsSet m k v).map Prod.fst = m.map Prod.fst := by
  unfold jsSet
  rw [if_pos h, List.map_map]
  refine List.map_congr_left ?_
  intro q _
  by_cases hq : q.1 = k <;> simp [hq]

theorem jsRead_of_some {α : Type} {m : List (String × α)} {k : String} {a : α}
    (h : jget m k = some a) : jsRead m k = JsProp.own a := by
  simp [jsRead, h]

theorem jsRead_absent {α : Type} {m : List (String × α)} {k : String}
    (h : jget m k = none) (hp : k ∉ objectProtoKeys) : jsRead m k = JsProp.absent := by
  simp [jsRead, h, hp]

theorem jsRead_inherited {α : Type} {m : List (String × α)} {k : String}
    (h : jget m k = none) (hp : k ∈ objectProtoKeys) : jsRead m k = JsProp.inherited := by
  simp [jsRead, h, hp]

theorem jsRead_own_jget {α : Type} {m : List (String × α)} {k : String} {a : α}
    (h : jsRead m k = JsProp.own a) : jget m k = some a := by
  unfold jsRead at h
  cases hg : jget m k with
  | some b =>
      rw [hg] at h
      injection h with h
      rw [h]
  | none =>
      rw [hg] at h
      by_cases hp : k ∈ objectProtoKeys <;> simp [hp] at h

theorem jsRead_absent_jget {α : Type} {m : List (String × α)} {k : String}
    (h : jsRead m k = JsProp.absent) : jget m k = none ∧ k ∉ objectProtoKeys := by
  unfold jsRead at h
  cases hg : jget m k with
  | some b => rw [hg] at h; simp at h
  | none =>
      rw [hg] at h
      by_cases hp : k ∈ objectProtoKeys
      · simp [hp] at h
      · exact ⟨rfl, hp⟩

theorem jsRead_inherited_jget {α : Type} {m : List (String × α)} {k : String}
    (h : jsRead m k = JsProp.inherited) : jget m k = none ∧ k ∈ objectProtoKeys := by
  unfold jsRead at h
  cases hg : jget m k with
  | some b => rw [hg] at h; simp at h
  | none =>
      rw [hg] at h
      by_cases hp : k ∈ objectProtoKeys
      · exact ⟨rfl, hp⟩
      · simp [hp] at h

/-! Lemmas about the catalog and segment-offset arithmetic. -/

theorem sumSizes_append (a b : List (Nat × Nat)) :
    sumSizes (a ++ b) = sumSizes a + sumSizes b := by
  simp [sumSizes]

theorem seg_of_append_lt (a b : List (Nat × Nat)) (p : Nat) (h : p < sumSizes a) :
    seg_of (a ++ b) p = seg_of a p := by
  induction a generalizing p with
  | nil => simp [sumSizes] at h
  | cons q a ih =>
      obtain ⟨g0, s0⟩ := q
      simp only [List.cons_append, seg_of]
      by_cases hq : p < s0
      · simp [hq]
      · simp only [if_neg hq]
        refine ih _ ?_
        simp only [sumSizes, List.map_cons, List.sum_cons] at h
        simp only [sumSizes]
        omega

theorem seg_of_append_self (a : List (Nat × Nat)) (g s r : Nat) (h : r < s) :
    seg_of (a ++ [(g, s)]) (sumSizes a + r) = some g := by
  induction a with
  | nil => simp [seg_of, sumSizes, h]
  | cons q a ih =>
      obtain ⟨g0, s0⟩ := q
      have hsum : sumSizes ((g0, s0) :: a) + r = s0 + (sumSizes a + r) := by
        simp only [sumSizes, List.map_cons, List.sum_cons]
        omega
      rw [List.cons_append, hsum]
      simp only [seg_of]
      rw [if_neg (by omega)]
      have hred : s0 + (sumSizes a + r) - s0 = sumSizes a + r := by omega
      rw [hred]
      exact ih

theorem seg_of_spec {a : List (Nat × Nat)} (hnod : (a.map Prod.fst).Nodup) {p g : Nat}
    (h : seg_of a p = some g) :
    ∃ s, jget a g = some s ∧ archive_offset a g ≤ p ∧ p < archive_offset a g + s := by
  induction a generalizing p with
  | nil => simp [seg_of] at h
  | cons q a ih =>
      simp only [seg_of] at h
      simp only [List.map_cons, List.nodup_cons] at hnod
      by_cases hq : p < q.2
      · rw [if_pos hq] at h
        injection h with h
        subst h
        exact ⟨q.2, by simp [jget_cons], by simp [archive_offset], by simp [archive_offset]; omega⟩
      · rw [if_neg hq] at h
        obtain ⟨s, hs, ho1, ho2⟩ := ih hnod.2 h
        have hgk : g ∈ a.map Prod.fst := jget_mem_keys hs
        have hne : q.1 ≠ g := fun he => hnod.1 (he ▸ hgk)
        refine ⟨s, ?_, ?_, ?_⟩
        · rw [jget_cons, if_neg hne]
          exact hs
        · simp only [archive_offset, if_neg hne]
          omega
        · simp only [archive_offset, if_neg hne]
          omega

theorem names_facts {names : List Nat} {c : Nat}
    (h : List.Chain' (fun a b => a < b) (names ++ [c])) :
    names.Nodup ∧ ∀ x ∈ names, x < c := by
  have hp : (names ++ [c]).Pairwise (fun a b => a < b) := List.chain'_iff_pairwise.mp h
  rw [List.pairwise_append] at hp
  refine ⟨?_, fun x hx => hp.2.2 x hx c (by simp)⟩
  exact hp.1.imp (fun hab => Nat.ne_of_lt hab)

/-! The invariant: establishment, basic consequences. -/

theorem initDB_inv (maxk c0 : Nat) : Inv maxk (initDB c0 : DB V) := by
  refine ⟨?_, ?_, ?_, ?_, ?_, ?_, ?_, ?_⟩ <;>
    simp [initDB, sumSizes, List.chain'_singleton]

theorem inv_entry_pos {maxk : Nat} {db : DB V} (hI : Inv maxk db) {k : String}
    {e : IndexEntry} (hj : jget db.index k = some e) :
    db.index.get? e.i = some (k, e) ∧ e.i < db.index.length := by
  obtain ⟨n, hn⟩ := List.get_of_mem (jget_mem hj)
  have hq : db.index.get? n.1 = some (k, e) := by
    rw [List.get?_eq_get n.2, hn]
  have hin := hI.idx_seq n.1 (k, e) hq
  simp only at hin
  rw [← hin] at hq
  refine ⟨hq, ?_⟩
  rw [hin]
  exact n.2

theorem gmci_resident {maxk : Nat} {db : DB V} (hI : Inv maxk db) {k : String}
    {e : IndexEntry} (hj : jget db.index k = some e) (hge : sumSizes db.archive ≤ e.i) :
    get_memory_cache_index db k = (index_size db : Int) - ((e.i : Int) + 1) ∧
    0 ≤ (index_size db : Int) - ((e.i : Int) + 1) ∧
    (index_size db : Int) - ((e.i : Int) + 1) < (cache_size db : Int) := by
  have hpos := (inv_entry_pos hI hj).2
  have hcl := hI.cache_len
  have hstop : (index_size db : Int) - ((e.i : Int) + 1) < (cache_size db : Int) := by
    simp only [index_size, cache_size]
    omega
  have h0 : 0 ≤ (index_size db : Int) - ((e.i : Int) + 1) := by
    simp only [index_size]
    omega
  refine ⟨?_, h0, hstop⟩
  simp only [get_memory_cache_index, jsRead_of_some hj]
  rw [if_pos hstop]

theorem gmci_archived {maxk : Nat} {db : DB V} (hI : Inv maxk db) {k : String}
    {e : IndexEntry} (hj : jget db.index k = some e) (hlt : e.i < sumSizes db.archive) :
    get_memory_cache_index db k = -1 := by
  have hpos := (inv_entry_pos hI hj).2
  have hcl := hI.cache_len
  have hcond : ¬((index_size db : Int) - ((e.i : Int) + 1) < (cache_size db : Int)) := by
    simp only [index_size, cache_size]
    omega
  simp only [get_memory_cache_index, jsRead_of_some hj, if_neg hcond]

/-- The archived slot of a sealed key: its segment file exists, and the
position computed by `_get_archived_index` is in range. -/
theorem archived_slot {maxk : Nat} {db : DB V} (hI : Inv maxk db) {k : String}
    {e : IndexEntry} (hj : jget db.index k = some e) (hlt : e.i < sumSizes db.archive) :
    ∃ c n, jget db.files e.f = some c ∧ n < c.length ∧
      get_archived_index db.archive e.i e.f c.length = (n : Int) := by
  have hpos := inv_entry_pos hI hj
  have hseg : seg_of db.archive e.i = some e.f := by
    simpa using (hI.seg_assign e.i (k, e) hpos.1).1 hlt
  have hnames := names_facts hI.names_lt
  obtain ⟨s, hjs, ho1, ho2⟩ := seg_of_spec hnames.1 hseg
  have hjf : (jget db.files e.f).map List.length = some s := by
    rw [← jget_map_val List.length db.files e.f, ← hI.archive_files]
    exact hjs
  cases hc : jget db.files e.f with
  | none => rw [hc] at hjf; simp at hjf
  | some c =>
      rw [hc] at hjf
      have hlen : c.length = s := by simpa using hjf
      refine ⟨c, (s - 1) - (e.i - archive_offset db.archive e.f), rfl, ?_, ?_⟩
      · omega
      · simp only [get_archived_index]
        omega

/-! Shape lemmas for `set`, and the central write-read correctness lemma. -/

theorem set_of_invalid (cfg : Config) (serLen : V → Option Nat) (db : DB V) (now : Nat)
    (key : JSKey) (v : V) (h : check_key cfg key ≠ 1 ∨ check_value cfg serLen v ≠ 1) :
    set cfg serLen db now key v = (db, false) := by
  by_cases hck : check_key cfg key = 1
  · rcases h with h | h
    · exact absurd hck h
    · simp [set, hck, h]
  · simp [set, hck]

theorem set_new (cfg : Config) (serLen : V → Option Nat) (db : DB V) (now : Nat)
    (k : String) (v : V) (hk : check_key cfg (JSKey.str k) = 1)
    (hv : check_value cfg serLen v = 1) (hn : jget db.index k = none)
    (hp : k ∉ objectProtoKeys) :
    set cfg serLen db now (JSKey.str k) v =
      ({ db with
          cache := v :: db.cache,
          index := db.index ++ [(k, ⟨index_size db, db.cache_file_name, now⟩)],
          rindex := jsSet db.rindex (index_size db) k }, true) := by
  simp [set, hk, hv, jsRead_absent hn hp, hn, jsSet_of_none]

theorem set_update_resident (cfg : Config) (serLen : V → Option Nat) (db : DB V) (now : Nat)
    (k : String) (v : V) (hk : check_key cfg (JSKey.str k) = 1)
    (hv : check_value cfg serLen v = 1) {e : IndexEntry} (hj : jget db.index k = some e)
    (hci : get_memory_cache_index db k ≠ -1) :
    set cfg serLen db now (JSKey.str k) v =
      ({ db with cache :=
          (if 0 ≤ get_memory_cache_index db k ∧
              get_memory_cache_index db k ≤ (db.cache.length : Int) then
            jsArraySet db.cache (get_memory_cache_index db k).toNat v
          else db.cache) }, true) := by
  simp [set, hk, hv, jsRead_of_some hj, hci]

theorem set_update_archived (cfg : Config) (serLen : V → Option Nat) (db : DB V) (now : Nat)
    (k : String) (v : V) (hk : check_key cfg (JSKey.str k) = 1)
    (hv : check_value cfg serLen v = 1) {e : IndexEntry} (hj : jget db.index k = some e)
    (hci : get_memory_cache_index db k = -1) :
    set cfg serLen db now (JSKey.str k) v = (update_file db k v, true) := by
  simp [set, hk, hv, jsRead_of_some hj, hci]

theorem gmci_not_own {db : DB V} {k : String} (h : jget db.index k = none) :
    get_memory_cache_index db k = -1 := by
  by_cases hp : k ∈ objectProtoKeys
  · simp [get_memory_cache_index, jsRead_inherited h hp]
  · simp [get_memory_cache_index, jsRead_absent h hp]

theorem set_update_inherited (cfg : Config) (serLen : V → Option Nat) (db : DB V) (now : Nat)
    (k : String) (v : V) (hk : check_key cfg (JSKey.str k) = 1)
    (hv : check_value cfg serLen v = 1) (hn : jget db.index k = none)
    (hp : k ∈ objectProtoKeys) :
    set cfg serLen db now (JSKey.str k) v = (db, true) := by
  have hr := jsRead_inherited (m := db.index) hn hp
  have hg : get_memory_cache_index db k = -1 := gmci_not_own hn
  simp [set, hk, hv, hr, hg, update_file]

theorem update_file_archived {maxk : Nat} {db : DB V} {v : V} (hI : Inv maxk db) {k : String}
    {e : IndexEntry} (hj : jget db.index k = some e) (hlt : e.i < sumSizes db.archive)
    {c : List V} {n : Nat} (hc : jget db.files e.f = some c) (hn : n < c.length)
    (hgai : get_archived_index db.archive e.i e.f c.length = (n : Int)) :
    update_file db k v = { db with files := jsSet db.files e.f (c.set n v) } := by
  simp only [update_file, jsRead_of_some hj, hc, hgai]
  rw [if_pos (by constructor <;> omega)]
  have htn : ((n : Int)).toNat = n := Int.toNat_natCast n
  rw [htn]
  have hset : jsArraySet c n v = c.set n v := by
    simp [jsArraySet, hn]
  rw [hset]

theorem get_found (cfg : Config) (db : DB V) (k : String)
    (hk : check_key cfg (JSKey.str k) = 1) {e : IndexEntry} (hj : jget db.index k = some e) :
    get cfg db (JSKey.str k) =
      if get_memory_cache_index db k ≠ -1 then
        match jsGetArr db.cache (get_memory_cache_index db k) with
        | some v => JsValue.val v
        | none => JsValue.undef
      else load_from_file db k := by
  simp [get, hk, jsRead_of_some hj]

theorem gmci_congr (db db2 : DB V) (k : String) (h1 : db2.index = db.index)
    (h2 : db2.cache.length = db.cache.length) :
    get_memory_cache_index db2 k = get_memory_cache_index db k := by
  simp only [get_memory_cache_index, index_size, cache_size, h1, h2]

theorem jsGetArr_set (l : List V) (n : Nat) (v : V) (hm : n < l.length) :
    jsGetArr (l.set n v) (n : Int) = some v := by
  have h0 : (0 : Int) ≤ (n : Int) := Int.natCast_nonneg n
  simp only [jsGetArr, if_pos h0, Int.toNat_natCast]
  rw [List.get?_set_eq, List.get?_eq_get (by simpa using hm)]
  rfl

theorem set_get_of_inv (cfg : Config) (serLen : V → Option Nat) {db : DB V}
    (hI : Inv cfg.max_key_size_bytes db) (now : Nat) (k : String) (v : V)
    (hk : check_key cfg (JSKey.str k) = 1) (hv : check_value cfg serLen v = 1)
    (hnp : jget db.index k = none → k ∉ objectProtoKeys) :
    (set cfg serLen db now (JSKey.str k) v).2 = true ∧
    get cfg (set cfg serLen db now (JSKey.str k) v).1 (JSKey.str k) = JsValue.val v := by
  cases hj : jget db.index k with
  | none =>
      rw [set_new cfg serLen db now k v hk hv hj (hnp hj)]
      refine ⟨rfl, ?_⟩
      have hj2 : jget (db.index ++ [(k, (⟨index_size db, db.cache_file_name, now⟩ : IndexEntry))]) k =
          some ⟨index_size db, db.cache_file_name, now⟩ := by
        rw [jget_append, hj]
        simp [jget_cons]
      rw [get_found cfg _ k hk hj2]
      have hg2 : get_memory_cache_index
          ({ db with
              cache := v :: db.cache,
              index := db.index ++ [(k, (⟨index_size db, db.cache_file_name, now⟩ : IndexEntry))],
              rindex := jsSet db.rindex (index_size db) k } : DB V) k = 0 := by
        have hj2b := jsRead_of_some hj2
        simp only [get_memory_cache_index, hj2b]
        simp only [index_size, cache_size, List.length_append, List.length_cons,
          List.length_nil]
        rw [if_pos (by push_cast; omega)]
        push_cast
        omega
      rw [hg2]
      rw [if_pos (by omega)]
      simp only [jsGetArr]
      norm_num
  | some e =>
      by_cases harch : e.i < sumSizes db.archive
      · -- the key is archived: `set` updates the segment file slot in place
        have hgm := gmci_archived hI hj harch
        obtain ⟨c, n, hc, hn, hgai⟩ := archived_slot hI hj harch
        have hstate : set cfg serLen db now (JSKey.str k) v =
            ({ db with files := jsSet db.files e.f (c.set n v) }, true) := by
          rw [set_update_archived cfg serLen db now k v hk hv hj hgm,
            update_file_archived hI hj harch hc hn hgai]
        rw [hstate]
        refine ⟨rfl, ?_⟩
        show get cfg ({ db with files := jsSet db.files e.f (c.set n v) } : DB V)
          (JSKey.str k) = JsValue.val v
        rw [get_found cfg ({ db with files := jsSet db.files e.f (c.set n v) } : DB V) k hk hj]
        have hg3 : get_memory_cache_index
            ({ db with files := jsSet db.files e.f (c.set n v) } : DB V) k = -1 := hgm
        rw [hg3]
        rw [if_neg (by simp)]
        simp only [load_from_file, jsRead_of_some hj, jget_jsSet_self, List.length_set, hgai]
        have htn : ((n : Int)).toNat = n := Int.toNat_natCast n
        simp only [jsGetArr, if_pos (Int.natCast_nonneg n), htn]
        rw [List.get?_set_eq, List.get?_eq_get (by simpa using hn)]
        rfl
      · -- the key is resident in the memory cache: `set` overwrites the slot
        push_neg at harch
        obtain ⟨hgm, h0, hlt2⟩ := gmci_resident hI hj harch
        have hci : get_memory_cache_index db k ≠ -1 := by
          rw [hgm]
          omega
        have hcond : 0 ≤ get_memory_cache_index db k ∧
            get_memory_cache_index db k ≤ (db.cache.length : Int) := by
          rw [hgm]
          simp only [cache_size] at hlt2
          constructor <;> omega
        have hm : (get_memory_cache_index db k).toNat < db.cache.length := by
          rw [hgm]
          simp only [cache_size] at hlt2
          omega
        have hset : jsArraySet db.cache (get_memory_cache_index db k).toNat v =
            db.cache.set (get_memory_cache_index db k).toNat v := by
          simp [jsArraySet, hm]
        have hstate : set cfg serLen db now (JSKey.str k) v =
            ({ db with cache := db.cache.set (get_memory_cache_index db k).toNat v }, true) := by
          rw [set_update_resident cfg serLen db now k v hk hv hj hci]
          rw [if_pos hcond, hset]
        rw [hstate]
        refine ⟨rfl, ?_⟩
        show get cfg
          ({ db with cache := db.cache.set (get_memory_cache_index db k).toNat v } : DB V)
          (JSKey.str k) = JsValue.val v
        rw [get_found cfg
          ({ db with cache := db.cache.set (get_memory_cache_index db k).toNat v } : DB V) k hk hj]
        have hg4 : get_memory_cache_index
            ({ db with cache := db.cache.set (get_memory_cache_index db k).toNat v } : DB V) k =
            get_memory_cache_index db k := by
          refine gmci_congr db
            ({ db with cache := db.cache.set (get_memory_cache_index db k).toNat v } : DB V)
            k rfl ?_
          simp
        rw [hg4]
        rw [if_pos hci]
        have hciq : get_memory_cache_index db k =
            (((get_memory_cache_index db k).toNat : Nat) : Int) := by
          rw [hgm]
          omega
        have hgv : jsGetArr (db.cache.set (get_memory_cache_index db k).toNat v)
            (get_memory_cache_index db k) = some v := by
          conv_lhs => rw [hciq]
          exact jsGetArr_set db.cache (get_memory_cache_index db k).toNat v hm
        rw [hgv]

/-! Invariant preservation by the mutating operations. -/

theorem set_inv (cfg : Config) (serLen : V → Option Nat) {db : DB V}
    (hI : Inv cfg.max_key_size_bytes db) (now : Nat) (key : JSKey) (v : V) :
    Inv cfg.max_key_size_bytes (set cfg serLen db now key v).1 := by
  by_cases hck : check_key cfg key = 1
  case neg =>
    rw [set_of_invalid cfg serLen db now key v (Or.inl hck)]
    exact hI
  by_cases hcv : check_value cfg serLen v = 1
  case neg =>
    rw [set_of_invalid cfg serLen db now key v (Or.inr hcv)]
    exact hI
  cases key with
  | nonstr => simp [check_key] at hck
  | str k =>
      cases hj : jget db.index k with
      | some e =>
          by_cases harch : e.i < sumSizes db.archive
          · -- archived update: only the key's slot in its segment file changes
            have hgm := gmci_archived hI hj harch
            obtain ⟨c, n, hc, hn, hgai⟩ := archived_slot hI hj harch
            have hstate : (set cfg serLen db now (JSKey.str k) v).1 =
                { db with files := jsSet db.files e.f (c.set n v) } := by
              rw [set_update_archived cfg serLen db now k v hck hcv hj hgm,
                update_file_archived hI hj harch hc hn hgai]
            rw [hstate]
            obtain ⟨i1, i2, i3, i4, i5, i6, i7, i8⟩ := hI
            refine ⟨i1, i2, i3, i4, i5, ?_, i7, i8⟩
            show db.archive = (jsSet db.files e.f (c.set n v)).map (fun q => (q.1, q.2.length))
            rw [jsSet_map_val (fun l => l.length) db.files e.f (c.set n v)]
            have harchget : jget (db.files.map (fun q => (q.1, q.2.length))) e.f =
                some c.length := by
              rw [jget_map_val, hc]
              rfl
            have hnames : ((db.files.map (fun q => (q.1, q.2.length))).map Prod.fst).Nodup := by
              rw [← i6]
              exact (names_facts i7).1
            rw [List.length_set]
            rw [jsSet_eq_self hnames harchget]
            exact i6
          · -- resident update: one cache slot changes, the length does not
            push_neg at harch
            obtain ⟨hgm, h0, hlt2⟩ := gmci_resident hI hj harch
            have hci : get_memory_cache_index db k ≠ -1 := by
              rw [hgm]
              omega
            have hcond : 0 ≤ get_memory_cache_index db k ∧
                get_memory_cache_index db k ≤ (db.cache.length : Int) := by
              rw [hgm]
              simp only [cache_size] at hlt2
              constructor <;> omega
            have hm : (get_memory_cache_index db k).toNat < db.cache.length := by
              rw [hgm]
              simp only [cache_size] at hlt2
              omega
            have hset : jsArraySet db.cache (get_memory_cache_index db k).toNat v =
                db.cache.set (get_memory_cache_index db k).toNat v := by
              simp [jsArraySet, hm]
            have hstate : (set cfg serLen db now (JSKey.str k) v).1 =
                { db with cache := db.cache.set (get_memory_cache_index db k).toNat v } := by
              rw [set_update_resident cfg serLen db now k v hck hcv hj hci]
              rw [if_pos hcond, hset]
            rw [hstate]
            obtain ⟨i1, i2, i3, i4, i5, i6, i7, i8⟩ := hI
            refine ⟨i1, i2, i3, i4, ?_, i6, i7, i8⟩
            show (db.cache.set (get_memory_cache_index db k).toNat v).length +
                sumSizes db.archive = db.index.length
            rw [List.length_set]
            exact i5
      | none =>
          by_cases hp : k ∈ objectProtoKeys
          · rw [show (set cfg serLen db now (JSKey.str k) v).1 = db from by
              rw [set_update_inherited cfg serLen db now k v hck hcv hj hp]]
            exact hI
          rw [set_new cfg serLen db now k v hck hcv hj hp]
          have hkeys : k ∉ db.index.map Prod.fst := (jget_eq_none db.index k).mp hj
          have hrn : jget db.rindex (index_size db) = none := by
            rw [hI.rindex_eq, jget_eq_none, List.enum_map_fst]
            simp [index_size, List.mem_range]
          rw [show (({ db with
              cache := v :: db.cache,
              index := db.index ++ [(k, ⟨index_size db, db.cache_file_name, now⟩)],
              rindex := jsSet db.rindex (index_size db) k }, true) :
                DB V × Bool).1 =
            { db with
              cache := v :: db.cache,
              index := db.index ++ [(k, ⟨index_size db, db.cache_file_name, now⟩)],
              rindex := jsSet db.rindex (index_size db) k } from rfl]
          rw [jsSet_of_none k hrn]
          have hklen : k.length ≤ cfg.max_key_size_bytes := by
            simp only [check_key] at hck
            by_cases hgt : k.length > cfg.max_key_size_bytes
            · rw [if_pos hgt] at hck
              norm_num at hck
            · omega
          have hSN := hI.cache_len
          refine ⟨?_, ?_, ?_, ?_, ?_, ?_, ?_, ?_⟩
          · intro p q hq
            rcases lt_trichotomy p db.index.length with hp | hp | hp
            · rw [List.get?_append hp] at hq
              exact hI.idx_seq p q hq
            · subst hp
              rw [List.get?_concat_length] at hq
              injection hq with hq
              rw [← hq]
              rfl
            · rw [List.get?_eq_none.mpr (by simp; omega)] at hq
              cases hq
          · rw [List.map_append]
            simp only [List.map_cons, List.map_nil]
            rw [List.nodup_append]
            refine ⟨hI.idx_nodup, List.nodup_singleton k, ?_⟩
            intro a ha hb
            simp only [List.mem_singleton] at hb
            subst hb
            exact hkeys ha
          · intro q hq
            rcases List.mem_append.mp hq with hq | hq
            · exact hI.idx_klen q hq
            · simp only [List.mem_singleton] at hq
              subst hq
              exact hklen
          · rw [hI.rindex_eq, List.map_append, List.enum_append]
            simp only [List.map_cons, List.map_nil]
            congr 1
            simp [List.enumFrom, index_size, List.length_map]
          · show (v :: db.cache).length + sumSizes db.archive =
              (db.index ++ [(k, (⟨index_size db, db.cache_file_name, now⟩ : IndexEntry))]).length
            simp only [List.length_cons, List.length_append, List.length_nil]
            omega
          · exact hI.archive_files
          · exact hI.names_lt
          · intro p q hq
            rcases lt_trichotomy p db.index.length with hp | hp | hp
            · rw [List.get?_append hp] at hq
              exact hI.seg_assign p q hq
            · subst hp
              rw [List.get?_concat_length] at hq
              injection hq with hq
              rw [← hq]
              constructor
              · intro hlt
                exfalso
                have hlt2 : db.index.length < sumSizes db.archive := hlt
                omega
              · intro _
                rfl
            · rw [List.get?_eq_none.mpr (by simp; omega)] at hq
              cases hq

theorem persist_inv {maxk : Nat} {db : DB V} (hI : Inv maxk db) (sp tm : Bool) {nn : Nat}
    (hnn : db.cache_file_name < nn) : Inv maxk (persist db sp tm nn) := by
  unfold persist
  split
  case isFalse => exact hI
  case isTrue hcond =>
  have hfacts := names_facts hI.names_lt
  have hcf_arch : jget db.archive db.cache_file_name = none := by
    rw [jget_eq_none]
    intro hmem
    exact absurd (hfacts.2 _ hmem) (lt_irrefl _)
  have hfilesnames : db.files.map Prod.fst = db.archive.map Prod.fst := by
    rw [hI.archive_files, List.map_map]
    rfl
  have hcf_files : jget db.files db.cache_file_name = none := by
    rw [jget_eq_none, hfilesnames]
    intro hmem
    exact absurd (hfacts.2 _ hmem) (lt_irrefl _)
  rw [jsSet_of_none (cache_size db) hcf_arch, jsSet_of_none db.cache hcf_files]
  have hSN := hI.cache_len
  have hsing : sumSizes [(db.cache_file_name, cache_size db)] = db.cache.length := by
    simp [sumSizes, cache_size]
  refine ⟨hI.idx_seq, hI.idx_nodup, hI.idx_klen, hI.rindex_eq, ?_, ?_, ?_, ?_⟩
  · show List.length [] + sumSizes (db.archive ++ [(db.cache_file_name, cache_size db)]) =
      db.index.length
    rw [sumSizes_append, hsing]
    simp only [List.length_nil]
    omega
  ·
    show db.archive ++ [(db.cache_file_name, cache_size db)] =
      (db.files ++ [(db.cache_file_name, db.cache)]).map (fun q => (q.1, q.2.length))
    rw [List.map_append, ← hI.archive_files]
    rfl
  ·
    show List.Chain' (fun a b => a < b)
      ((db.archive ++ [(db.cache_file_name, cache_size db)]).map Prod.fst ++ [nn])
    rw [List.map_append]
    simp only [List.map_cons, List.map_nil]
    refine List.Chain'.append hI.names_lt (List.chain'_singleton nn) ?_
    intro x hx y hy
    rw [List.getLast?_concat] at hx
    simp only [Option.mem_def, Option.some.injEq] at hx
    simp only [List.head?_cons, Option.mem_def, Option.some.injEq] at hy
    rw [← hx, ← hy]
    exact hnn
  · intro p q hq
    have hp : p < db.index.length := by
      obtain ⟨hlt, _⟩ := List.get?_eq_some.mp hq
      exact hlt
    have hold := hI.seg_assign p q hq
    constructor
    · intro _
      by_cases hps : p < sumSizes db.archive
      · rw [seg_of_append_lt db.archive _ p hps]
        exact hold.1 hps
      · push_neg at hps
        have hqf : q.2.f = db.cache_file_name := hold.2 hps
        have hdecomp : p = sumSizes db.archive + (p - sumSizes db.archive) := by omega
        rw [hdecomp, seg_of_append_self db.archive db.cache_file_name (cache_size db)
          (p - sumSizes db.archive) (by simp only [cache_size]; omega)]
        rw [hqf]
    · intro hge
      exfalso
      have hge2 : sumSizes (db.archive ++ [(db.cache_file_name, cache_size db)]) ≤ p := hge
      rw [sumSizes_append, hsing] at hge2
      omega

theorem run_inv (cfg : Config) (serLen : V → Option Nat) {db : DB V} (ops : List (Op V))
    (hI : Inv cfg.max_key_size_bytes db) (ht : trace_ok cfg serLen db ops = true) :
    Inv cfg.max_key_size_bytes (run cfg serLen db ops) := by
  induction ops generalizing db with
  | nil => exact hI
  | cons op ops ih =>
      simp only [trace_ok, Bool.and_eq_true] at ht
      refine ih ?_ ht.2
      cases op with
      | doSet now key v => exact set_inv cfg serLen hI now key v
      | doGet key => exact hI
      | doGetn ir tr => exact hI
      | doPersist sp tm nn =>
          have hnn : db.cache_file_name < nn := by
            have := ht.1
            simp only [decide_eq_true_eq] at this
            exact this
          exact persist_inv hI sp tm hnn

/-! Derived facts used by the claim theorems. -/

theorem map_seq_eq_range {maxk : Nat} {db : DB V} (hI : Inv maxk db) :
    db.index.map (fun q => q.2.i) = List.range db.index.length := by
  refine List.ext_get (by simp) ?_
  intro n h1 h2
  have hget : db.index.get? n = some (db.index.get ⟨n, by simpa using h1⟩) :=
    List.get?_eq_get _
  have := hI.idx_seq n _ hget
  simp only [List.get_map, List.get_range]
  exact this

theorem check_key_of_mem {cfg : Config} {db : DB V} (hI : Inv cfg.max_key_size_bytes db)
    {k : String} {e : IndexEntry} (hj : jget db.index k = some e) :
    check_key cfg (JSKey.str k) = 1 := by
  have hle : k.length ≤ cfg.max_key_size_bytes := by
    simpa using hI.idx_klen (k, e) (jget_mem hj)
  simp only [check_key]
  rw [if_neg (by omega)]

theorem set_update_index (cfg : Config) (serLen : V → Option Nat) {db : DB V}
    (hI : Inv cfg.max_key_size_bytes db) (now : Nat) (k : String) (v : V)
    {e : IndexEntry} (hj : jget db.index k = some e)
    (hv : check_value cfg serLen v = 1) :
    (set cfg serLen db now (JSKey.str k) v).1.index = db.index := by
  have hk := check_key_of_mem hI hj
  by_cases harch : e.i < sumSizes db.archive
  · have hgm := gmci_archived hI hj harch
    obtain ⟨c, n, hc, hn, hgai⟩ := archived_slot hI hj harch
    rw [set_update_archived cfg serLen db now k v hk hv hj hgm,
      update_file_archived hI hj harch hc hn hgai]
  · push_neg at harch
    obtain ⟨hgm, h0, hlt2⟩ := gmci_resident hI hj harch
    have hci : get_memory_cache_index db k ≠ -1 := by
      rw [hgm]
      omega
    rw [set_update_resident cfg serLen db now k v hk hv hj hci]

/-! Claim theorems: point lookup and write-path properties (C1 to C5, C10). -/

/-- C1 counterexample: `"toString"` is a valid key (a short string) and `7`
a valid value, yet on an empty store `put("toString", 7)` reports success
while storing nothing — `this.index["toString"]` is truthy through the
`Object.prototype` chain, so `set` takes the update path and `_update_file`
silently changes nothing — and `get("toString")` immediately afterwards
returns `null` (the missing-file path of `_load_from_file`), not `7`. -/
theorem C1_counterexample :
    check_key cfg0 (JSKey.str "toString") = 1 ∧
    check_value cfg0 serLen0 (7 : Nat) = 1 ∧
    set cfg0 serLen0 (initDB 100 : DB Nat) 5 (JSKey.str "toString") 7 =
      (initDB 100, true) ∧
    get cfg0 (set cfg0 serLen0 (initDB 100 : DB Nat) 5 (JSKey.str "toString") 7).1
      (JSKey.str "toString") = JsValue.nullv ∧
    (JsValue.nullv : JsValue Nat) ≠ JsValue.val 7 := by
  refine ⟨by decide, by decide, by decide, by decide, by decide⟩

/-- C1 (amended): for every valid key that is not one of the
`Object.prototype` member names, and every valid value, after any prior
sequence of operations from an empty store along a well-formed trace,
`get(k)` invoked immediately after `put(k, v)` succeeds and returns `v` —
whether the key is still resident in the memory cache or has been sealed
into an archived segment, whose slot is resolved by `get_archived_index` as
`positionInFile = segmentLength - 1 - (seq - offset)` with `offset` the sum
of the catalog sizes of the segments sealed strictly before the key's
segment.  For a prototype-name key never inserted, `put` reports success
without storing (see the counterexample); once such a key has an own index
entry the conclusion holds for it too, which the hypothesis
`jget … = none → k ∉ objectProtoKeys` expresses. -/
theorem C1_get_after_put {V : Type} (cfg : Config) (serLen : V → Option Nat) (c0 : Nat)
    (ops : List (Op V)) (now : Nat) (k : String) (v : V)
    (ht : trace_ok cfg serLen (initDB c0) ops = true)
    (hk : check_key cfg (JSKey.str k) = 1) (hv : check_value cfg serLen v = 1)
    (hnp : jget (run cfg serLen (initDB c0) ops).index k = none → k ∉ objectProtoKeys) :
    (set cfg serLen (run cfg serLen (initDB c0) ops) now (JSKey.str k) v).2 = true ∧
    get cfg (set cfg serLen (run cfg serLen (initDB c0) ops) now (JSKey.str k) v).1
      (JSKey.str k) = JsValue.val v :=
  set_get_of_inv cfg serLen
    (run_inv cfg serLen ops (initDB_inv cfg.max_key_size_bytes c0) ht) now k v hk hv hnp

theorem C1_witness :
    trace_ok cfg0 serLen0 (initDB 100)
      [Op.doSet 10 (JSKey.str "a") 5, Op.doSet 20 (JSKey.str "b") 6,
       Op.doPersist true false 200, Op.doSet 30 (JSKey.str "c") 7] = true ∧
    ((set cfg0 serLen0
        (run cfg0 serLen0 (initDB 100)
          [Op.doSet 10 (JSKey.str "a") 5, Op.doSet 20 (JSKey.str "b") 6,
           Op.doPersist true false 200, Op.doSet 30 (JSKey.str "c") 7])
        40 (JSKey.str "a") 9).2 = true ∧
      get cfg0 (set cfg0 serLen0
        (run cfg0 serLen0 (initDB 100)
          [Op.doSet 10 (JSKey.str "a") 5, Op.doSet 20 (JSKey.str "b") 6,
           Op.doPersist true false 200, Op.doSet 30 (JSKey.str "c") 7])
        40 (JSKey.str "a") 9).1 (JSKey.str "a") = JsValue.val 9) :=
  ⟨by decide,
   C1_get_after_put cfg0 serLen0 100
     [Op.doSet 10 (JSKey.str "a") 5, Op.doSet 20 (JSKey.str "b") 6,
      Op.doPersist true false 200, Op.doSet 30 (JSKey.str "c") 7]
     40 "a" 9 (by decide) (by decide) (by decide) (by decide)⟩

/-- C2: after every sequence of public operations from an empty store along a
well-formed trace, the assigned seq values are exactly `0 .. N-1` in
insertion order (never reassigned), the primary and order index have equal
size, and the cache length equals the index size minus the sum of the
catalog entry sizes. -/
theorem C2_invariants {V : Type} (cfg : Config) (serLen : V → Option Nat) (c0 : Nat)
    (ops : List (Op V)) (ht : trace_ok cfg serLen (initDB c0) ops = true) :
    (run cfg serLen (initDB c0) ops).index.map (fun q => q.2.i) =
      List.range (index_size (run cfg serLen (initDB c0) ops)) ∧
    rindex_size (run cfg serLen (initDB c0) ops) =
      index_size (run cfg serLen (initDB c0) ops) ∧
    cache_size (run cfg serLen (initDB c0) ops) =
      index_size (run cfg serLen (initDB c0) ops) -
        sumSizes (run cfg serLen (initDB c0) ops).archive := by
  have hI := run_inv cfg serLen ops (initDB_inv cfg.max_key_size_bytes c0) ht
  refine ⟨map_seq_eq_range hI, ?_, ?_⟩
  · rw [rindex_size, hI.rindex_eq, List.enum_length, List.length_map]
    rfl
  · have := hI.cache_len
    simp only [cache_size, index_size]
    omega

theorem C2_witness :
    trace_ok cfg0 serLen0 (initDB 100)
      [Op.doSet 10 (JSKey.str "a") 5, Op.doSet 20 (JSKey.str "b") 6,
       Op.doPersist true false 200, Op.doSet 30 (JSKey.str "c") 7] = true ∧
    ((run cfg0 serLen0 (initDB 100)
        [Op.doSet 10 (JSKey.str "a") 5, Op.doSet 20 (JSKey.str "b") 6,
         Op.doPersist true false 200, Op.doSet 30 (JSKey.str "c") 7]).index.map
        (fun q => q.2.i) =
      List.range (index_size (run cfg0 serLen0 (initDB 100)
        [Op.doSet 10 (JSKey.str "a") 5, Op.doSet 20 (JSKey.str "b") 6,
         Op.doPersist true false 200, Op.doSet 30 (JSKey.str "c") 7])) ∧
      rindex_size (run cfg0 serLen0 (initDB 100)
        [Op.doSet 10 (JSKey.str "a") 5, Op.doSet 20 (JSKey.str "b") 6,
         Op.doPersist true false 200, Op.doSet 30 (JSKey.str "c") 7]) =
        index_size (run cfg0 serLen0 (initDB 100)
          [Op.doSet 10 (JSKey.str "a") 5, Op.doSet 20 (JSKey.str "b") 6,
           Op.doPersist true false 200, Op.doSet 30 (JSKey.str "c") 7]) ∧
      cache_size (run cfg0 serLen0 (initDB 100)
        [Op.doSet 10 (JSKey.str "a") 5, Op.doSet 20 (JSKey.str "b") 6,
         Op.doPersist true false 200, Op.doSet 30 (JSKey.str "c") 7]) =
        index_size (run cfg0 serLen0 (initDB 100)
          [Op.doSet 10 (JSKey.str "a") 5, Op.doSet 20 (JSKey.str "b") 6,
           Op.doPersist true false 200, Op.doSet 30 (JSKey.str "c") 7]) -
          sumSizes (run cfg0 serLen0 (initDB 100)
            [Op.doSet 10 (JSKey.str "a") 5, Op.doSet 20 (JSKey.str "b") 6,
             Op.doPersist true false 200, Op.doSet 30 (JSKey.str "c") 7]).archive) :=
  ⟨by decide,
   C2_invariants cfg0 serLen0 100
     [Op.doSet 10 (JSKey.str "a") 5, Op.doSet 20 (JSKey.str "b") 6,
      Op.doPersist true false 200, Op.doSet 30 (JSKey.str "c") 7] (by decide)⟩

/-- C3 counterexample: the empty string is not a non-empty string, yet
`put("", v)` with a valid value succeeds and inserts a new entry — the
index size grows from 0 to 1, refuting both the claimed failure and the
claimed absence of mutation. -/
theorem C3_counterexample :
    (set cfg0 serLen0 (initDB 100 : DB Nat) 5 (JSKey.str "") 7).2 = true ∧
    index_size (set cfg0 serLen0 (initDB 100 : DB Nat) 5 (JSKey.str "") 7).1 = 1 ∧
    index_size (initDB 100 : DB Nat) = 0 := by
  decide

/-- C3 amended: for every key that is not a string or whose length exceeds
`max_key_size_bytes` (the empty string is accepted), and for every value
that does not serialize or whose serialized size exceeds
`max_value_size_bytes`, `put` returns failure and performs no mutation at
all: the resulting state is the original state. -/
theorem C3_amended {V : Type} (cfg : Config) (serLen : V → Option Nat) (db : DB V)
    (now : Nat) (key : JSKey) (v : V)
    (h : check_key cfg key ≠ 1 ∨ check_value cfg serLen v ≠ 1) :
    set cfg serLen db now key v = (db, false) :=
  set_of_invalid cfg serLen db now key v h

theorem C3_witness :
    set cfg0 serLen0 (initDB 3 : DB Nat) 1 JSKey.nonstr 5 = (initDB 3, false) :=
  C3_amended cfg0 serLen0 (initDB 3) 1 JSKey.nonstr 5 (Or.inl (by decide))

/-- C4: re-`put`-ting a key already present in the index with a valid value
leaves the index (hence `indexSize()` and the key's seq, segment and
created_at fields) unchanged, succeeds, and a subsequent `get` returns the
new value. -/
theorem C4_update_in_place {V : Type} (cfg : Config) (serLen : V → Option Nat) (c0 : Nat)
    (ops : List (Op V)) (now : Nat) (k : String) (v : V) (e : IndexEntry)
    (ht : trace_ok cfg serLen (initDB c0) ops = true)
    (he : jget (run cfg serLen (initDB c0) ops).index k = some e)
    (hv : check_value cfg serLen v = 1) :
    (set cfg serLen (run cfg serLen (initDB c0) ops) now (JSKey.str k) v).1.index =
      (run cfg serLen (initDB c0) ops).index ∧
    index_size (set cfg serLen (run cfg serLen (initDB c0) ops) now (JSKey.str k) v).1 =
      index_size (run cfg serLen (initDB c0) ops) ∧
    jget (set cfg serLen (run cfg serLen (initDB c0) ops) now (JSKey.str k) v).1.index k =
      some e ∧
    (set cfg serLen (run cfg serLen (initDB c0) ops) now (JSKey.str k) v).2 = true ∧
    get cfg (set cfg serLen (run cfg serLen (initDB c0) ops) now (JSKey.str k) v).1
      (JSKey.str k) = JsValue.val v := by
  have hI := run_inv cfg serLen ops (initDB_inv cfg.max_key_size_bytes c0) ht
  have hk := check_key_of_mem hI he
  have hidx := set_update_index cfg serLen hI now k v he hv
  have hmain := set_get_of_inv cfg serLen hI now k v hk hv
    (fun hn => absurd he (by rw [hn]; exact fun h => Option.noConfusion h))
  refine ⟨hidx, ?_, ?_, hmain.1, hmain.2⟩
  · rw [index_size, hidx]
    rfl
  · rw [hidx]
    exact he

theorem C4_witness :
    trace_ok cfg0 serLen0 (initDB 100)
      [Op.doSet 10 (JSKey.str "a") 5, Op.doSet 20 (JSKey.str "b") 6,
       Op.doPersist true false 200, Op.doSet 30 (JSKey.str "c") 7] = true ∧
    jget (run cfg0 serLen0 (initDB 100)
      [Op.doSet 10 (JSKey.str "a") 5, Op.doSet 20 (JSKey.str "b") 6,
       Op.doPersist true false 200, Op.doSet 30 (JSKey.str "c") 7]).index "a" =
      some ⟨0, 100, 10⟩ ∧
    ((set cfg0 serLen0 (run cfg0 serLen0 (initDB 100)
        [Op.doSet 10 (JSKey.str "a") 5, Op.doSet 20 (JSKey.str "b") 6,
         Op.doPersist true false 200, Op.doSet 30 (JSKey.str "c") 7])
        40 (JSKey.str "a") 9).1.index =
      (run cfg0 serLen0 (initDB 100)
        [Op.doSet 10 (JSKey.str "a") 5, Op.doSet 20 (JSKey.str "b") 6,
         Op.doPersist true false 200, Op.doSet 30 (JSKey.str "c") 7]).index ∧
      index_size (set cfg0 serLen0 (run cfg0 serLen0 (initDB 100)
        [Op.doSet 10 (JSKey.str "a") 5, Op.doSet 20 (JSKey.str "b") 6,
         Op.doPersist true false 200, Op.doSet 30 (JSKey.str "c") 7])
        40 (JSKey.str "a") 9).1 =
        index_size (run cfg0 serLen0 (initDB 100)
          [Op.doSet 10 (JSKey.str "a") 5, Op.doSet 20 (JSKey.str "b") 6,
           Op.doPersist true false 200, Op.doSet 30 (JSKey.str "c") 7]) ∧
      jget (set cfg0 serLen0 (run cfg0 serLen0 (initDB 100)
        [Op.doSet 10 (JSKey.str "a") 5, Op.doSet 20 (JSKey.str "b") 6,
         Op.doPersist true false 200, Op.doSet 30 (JSKey.str "c") 7])
        40 (JSKey.str "a") 9).1.index "a" = some ⟨0, 100, 10⟩ ∧
      (set cfg0 serLen0 (run cfg0 serLen0 (initDB 100)
        [Op.doSet 10 (JSKey.str "a") 5, Op.doSet 20 (JSKey.str "b") 6,
         Op.doPersist true false 200, Op.doSet 30 (JSKey.str "c") 7])
        40 (JSKey.str "a") 9).2 = true ∧
      get cfg0 (set cfg0 serLen0 (run cfg0 serLen0 (initDB 100)
        [Op.doSet 10 (JSKey.str "a") 5, Op.doSet 20 (JSKey.str "b") 6,
         Op.doPersist true false 200, Op.doSet 30 (JSKey.str "c") 7])
        40 (JSKey.str "a") 9).1 (JSKey.str "a") = JsValue.val 9) :=
  ⟨by decide, by decide,
   C4_update_in_place cfg0 serLen0 100
     [Op.doSet 10 (JSKey.str "a") 5, Op.doSet 20 (JSKey.str "b") 6,
      Op.doPersist true false 200, Op.doSet 30 (JSKey.str "c") 7]
     40 "a" 9 ⟨0, 100, 10⟩ (by decide) (by decide) (by decide)⟩

/-- C5: rotation occurs during a checkpoint exactly when a threshold fired
and the active segment is non-empty; when it occurs the cache size drops to
0, the catalog gains an entry for the sealed segment whose item count is the
pre-rotation cache size, and the index size is unchanged; otherwise (in
particular whenever the cache is empty) the state is unchanged. -/
theorem C5_rotation {V : Type} (cfg : Config) (serLen : V → Option Nat) (c0 : Nat)
    (ops : List (Op V)) (sp tm : Bool) (nn : Nat)
    (ht : trace_ok cfg serLen (initDB c0) ops = true) :
    ((sp || tm) = true ∧ 0 < cache_size (run cfg serLen (initDB c0) ops) →
      cache_size (persist (run cfg serLen (initDB c0) ops) sp tm nn) = 0 ∧
      (persist (run cfg serLen (initDB c0) ops) sp tm nn).archive =
        (run cfg serLen (initDB c0) ops).archive ++
          [((run cfg serLen (initDB c0) ops).cache_file_name,
            cache_size (run cfg serLen (initDB c0) ops))] ∧
      index_size (persist (run cfg serLen (initDB c0) ops) sp tm nn) =
        index_size (run cfg serLen (initDB c0) ops)) ∧
    ((sp || tm) = false ∨ cache_size (run cfg serLen (initDB c0) ops) = 0 →
      persist (run cfg serLen (initDB c0) ops) sp tm nn =
        run cfg serLen (initDB c0) ops) := by
  have hI := run_inv cfg serLen ops (initDB_inv cfg.max_key_size_bytes c0) ht
  constructor
  · intro hcond
    have hfacts := names_facts hI.names_lt
    have hcf_arch : jget (run cfg serLen (initDB c0) ops).archive
        (run cfg serLen (initDB c0) ops).cache_file_name = none := by
      rw [jget_eq_none]
      intro hmem
      exact absurd (hfacts.2 _ hmem) (lt_irrefl _)
    unfold persist
    rw [if_pos (by rw [hcond.1]; simpa using hcond.2)]
    refine ⟨rfl, ?_, rfl⟩
    exact jsSet_of_none _ hcf_arch
  · intro hcond
    unfold persist
    rw [if_neg ?_]
    rcases hcond with hcond | hcond
    · rw [hcond]
      simp
    · rw [hcond]
      simp

theorem C5_witness :
    trace_ok cfg0 serLen0 (initDB 100) [Op.doSet 10 (JSKey.str "a") 5] = true ∧
    ((true || false) = true ∧
      0 < cache_size (run cfg0 serLen0 (initDB 100) [Op.doSet 10 (JSKey.str "a") 5])) ∧
    (cache_size (persist (run cfg0 serLen0 (initDB 100)
        [Op.doSet 10 (JSKey.str "a") 5]) true false 200) = 0 ∧
      (persist (run cfg0 serLen0 (initDB 100)
        [Op.doSet 10 (JSKey.str "a") 5]) true false 200).archive =
        (run cfg0 serLen0 (initDB 100) [Op.doSet 10 (JSKey.str "a") 5]).archive ++
          [((run cfg0 serLen0 (initDB 100) [Op.doSet 10 (JSKey.str "a") 5]).cache_file_name,
            cache_size (run cfg0 serLen0 (initDB 100) [Op.doSet 10 (JSKey.str "a") 5]))] ∧
      index_size (persist (run cfg0 serLen0 (initDB 100)
        [Op.doSet 10 (JSKey.str "a") 5]) true false 200) =
        index_size (run cfg0 serLen0 (initDB 100) [Op.doSet 10 (JSKey.str "a") 5])) :=
  ⟨by decide, ⟨by decide, by decide⟩,
   (C5_rotation cfg0 serLen0 100 [Op.doSet 10 (JSKey.str "a") 5] true false 200
     (by decide)).1 ⟨by decide, by decide⟩⟩

/-- C10 counterexample: `"toString"` is a valid string key absent from the
index of an empty store, yet `get("toString")` returns `null`, not
`undefined` — `this.index["toString"]` is truthy through the
`Object.prototype` chain, so `get` proceeds past the truthiness test and
`_load_from_file` hits the missing-file path.  The invalid-key outcome
(`undefined`, shown for the absent non-prototype key `"zz"`) is therefore
distinguishable from this key-not-found outcome. -/
theorem C10_counterexample :
    check_key cfg0 (JSKey.str "toString") = 1 ∧
    jget (initDB 7 : DB Nat).index "toString" = none ∧
    get cfg0 (initDB 7 : DB Nat) (JSKey.str "toString") = JsValue.nullv ∧
    get cfg0 (initDB 7 : DB Nat) (JSKey.str "zz") = JsValue.undef ∧
    (JsValue.nullv : JsValue Nat) ≠ JsValue.undef := by
  refine ⟨by decide, by decide, by decide, by decide, by decide⟩

/-- C10 (amended): `get` returns `undefined` for a non-string key, an
oversize string key, and a valid string key that is absent from the index
and is not an `Object.prototype` member name, performing no state change
(`get` is effect-free in the model; in the source these paths touch no
engine state either).  A valid absent key that IS a prototype member name
instead returns `null` through the missing-file path of `_load_from_file`,
so the invalid-key and key-not-found outcomes are distinguishable on those
keys. -/
theorem C10_get_absent {V : Type} (cfg : Config) (db : DB V) (key : JSKey) (s : String) :
    (check_key cfg key ≠ 1 → get cfg db key = JsValue.undef) ∧
    (jget db.index s = none → s ∉ objectProtoKeys →
      get cfg db (JSKey.str s) = JsValue.undef) ∧
    (check_key cfg (JSKey.str s) = 1 → jget db.index s = none → s ∈ objectProtoKeys →
      get cfg db (JSKey.str s) = JsValue.nullv) := by
  refine ⟨?_, ?_, ?_⟩
  · intro hck
    simp [get, hck]
  · intro hn hp
    by_cases hck : check_key cfg (JSKey.str s) = 1
    · simp [get, hck, jsRead_absent hn hp]
    · simp [get, hck]
  · intro hck hn hp
    have hr := jsRead_inherited (m := db.index) hn hp
    have hg : get_memory_cache_index db s = -1 := gmci_not_own hn
    simp [get, hck, hr, hg, load_from_file]

theorem C10_witness :
    (check_key cfg0 (JSKey.nonstr) ≠ 1 ∧
      get cfg0 (initDB 7 : DB Nat) JSKey.nonstr = JsValue.undef) ∧
    (jget (initDB 7 : DB Nat).index "zz" = none ∧ "zz" ∉ objectProtoKeys ∧
      get cfg0 (initDB 7 : DB Nat) (JSKey.str "zz") = JsValue.undef) ∧
    (check_key cfg0 (JSKey.str "toString") = 1 ∧
      jget (initDB 7 : DB Nat).index "toString" = none ∧
      "toString" ∈ objectProtoKeys ∧
      get cfg0 (initDB 7 : DB Nat) (JSKey.str "toString") = JsValue.nullv) :=
  ⟨⟨by decide, (C10_get_absent cfg0 (initDB 7) JSKey.nonstr "zz").1 (by decide)⟩,
   ⟨by decide, by decide,
    (C10_get_absent cfg0 (initDB 7) (JSKey.str "zz") "zz").2.1 (by decide) (by decide)⟩,
   ⟨by decide, by decide, by decide,
    (C10_get_absent cfg0 (initDB 7) (JSKey.str "toString") "toString").2.2
      (by decide) (by decide) (by decide)⟩⟩

/-! Range queries by position (C6). -/

theorem getn_clamp_congr (db : DB V) (s e s2 e2 : Int)
    (h : (if (index_size db : Int) < e ∨ (index_size db : Int) < s
          then ((0 : Int), (index_size db : Int)) else (s, e)) =
         (if (index_size db : Int) < e2 ∨ (index_size db : Int) < s2
          then ((0 : Int), (index_size db : Int)) else (s2, e2))) :
    getn db (some (s, e)) none = getn db (some (s2, e2)) none := by
  simp only [getn]
  rw [h]

/-- C6 counterexample: with one stored value, `rangeByPosition(-1, 2)` has a
negative bound, yet because the end bound 2 exceeds the index size 1 the
code first resets the range to `[0, 1]` and returns all stored values
instead of the empty sequence the claim requires for negative bounds. -/
theorem C6_counterexample :
    getn (run cfg0 serLen0 (initDB 100) [Op.doSet 10 (JSKey.str "a") 5])
      (some (-1, 2)) none = [5] ∧ ([5] : List Nat) ≠ [] := by
  constructor
  · decide
  · decide

/-- C6 amended: when either bound exceeds `indexSize()`, `rangeByPosition`
resets the range to `[0, indexSize()]` and behaves as
`rangeByPosition(0, indexSize())` — this reset takes precedence over bound
validation; only when neither bound exceeds `indexSize()` do a negative
bound or `startPos > endPos` yield the empty sequence. -/
theorem C6_clamp_then_validate (db : DB V) (s e : Int) :
    ((index_size db : Int) < e ∨ (index_size db : Int) < s →
      getn db (some (s, e)) none = getn db (some (0, (index_size db : Int))) none) ∧
    (e ≤ (index_size db : Int) → s ≤ (index_size db : Int) →
      s < 0 ∨ e < 0 ∨ e < s → getn db (some (s, e)) none = []) := by
  constructor
  · intro hover
    refine getn_clamp_congr db s e 0 (index_size db : Int) ?_
    rw [if_pos hover, if_neg (by omega)]
  · intro he hs hbad
    simp only [getn]
    have hclamp : (if (index_size db : Int) < e ∨ (index_size db : Int) < s
        then ((0 : Int), (index_size db : Int)) else (s, e)) = (s, e) := if_neg (by omega)
    rw [hclamp]
    simp only []
    rw [if_pos hbad]

theorem C6_witness :
    ((index_size (run cfg0 serLen0 (initDB 100) [Op.doSet 10 (JSKey.str "a") 5]) : Int) < 2 ∨
      (index_size (run cfg0 serLen0 (initDB 100) [Op.doSet 10 (JSKey.str "a") 5]) : Int) < -1) ∧
    getn (run cfg0 serLen0 (initDB 100) [Op.doSet 10 (JSKey.str "a") 5])
        (some (-1, 2)) none =
      getn (run cfg0 serLen0 (initDB 100) [Op.doSet 10 (JSKey.str "a") 5])
        (some (0, (index_size (run cfg0 serLen0 (initDB 100)
          [Op.doSet 10 (JSKey.str "a") 5]) : Int))) none ∧
    getn (run cfg0 serLen0 (initDB 100) [Op.doSet 10 (JSKey.str "a") 5])
        (some (1, 0)) none = [] :=
  ⟨by decide,
   (C6_clamp_then_validate (run cfg0 serLen0 (initDB 100)
      [Op.doSet 10 (JSKey.str "a") 5]) (-1) 2).1 (by decide),
   (C6_clamp_then_validate (run cfg0 serLen0 (initDB 100)
      [Op.doSet 10 (JSKey.str "a") 5]) 1 0).2 (by decide) (by decide)
      (Or.inr (Or.inr (by decide)))⟩

/-! The binary search of `_binary_search` (C7). -/

theorem middle_bounds {start stop : Int} (h : start ≤ stop) :
    start ≤ Int.fdiv (start + stop) 2 ∧ Int.fdiv (start + stop) 2 ≤ stop := by
  rw [Int.fdiv_eq_ediv _ (by norm_num)]
  omega

theorem sorted_get_mono {arr : List Int} (hs : arr.Sorted (fun a b => a ≤ b))
    {i j : Nat} (hij : i ≤ j) (hj : j < arr.length) :
    arr.get ⟨i, lt_of_le_of_lt hij hj⟩ ≤ arr.get ⟨j, hj⟩ := by
  rcases Nat.eq_or_lt_of_le hij with rfl | hlt
  · exact le_refl _
  · exact List.pairwise_iff_get.mp hs ⟨i, lt_of_le_of_lt hij hj⟩ ⟨j, hj⟩ hlt

theorem countP_eq_of_partition (arr : List Int) (key : Int) (t : Nat) (hle : t ≤ arr.length)
    (h1 : ∀ j : Nat, j < t → ∃ x, arr.get? j = some x ∧ x < key)
    (h2 : ∀ j : Nat, t ≤ j → j < arr.length → ∃ x, arr.get? j = some x ∧ ¬(x < key)) :
    arr.countP (fun x => decide (x < key)) = t := by
  conv_lhs => rw [← List.take_append_drop t arr]
  rw [List.countP_append]
  have hc1 : (arr.take t).countP (fun x => decide (x < key)) = t := by
    have hlen : (arr.take t).length = t := by
      rw [List.length_take]
      omega
    have hfull : (arr.take t).countP (fun x => decide (x < key)) = (arr.take t).length := by
      refine List.countP_eq_length.mpr ?_
      intro a ha
      obtain ⟨j, hj⟩ := List.mem_iff_get?.mp ha
      have hjt : j < t := by
        obtain ⟨hjl, _⟩ := List.get?_eq_some.mp hj
        omega
      rw [List.get?_take hjt] at hj
      obtain ⟨x, hx, hxk⟩ := h1 j hjt
      rw [hj] at hx
      injection hx with hx
      subst hx
      simpa using hxk
    rw [hfull, hlen]
  have hc2 : (arr.drop t).countP (fun x => decide (x < key)) = 0 := by
    refine List.countP_eq_zero.mpr ?_
    intro a ha
    obtain ⟨j, hj⟩ := List.mem_iff_get?.mp ha
    rw [List.get?_drop] at hj
    have hjl : t + j < arr.length := by
      cases hg : arr.get? (t + j) with
      | none => rw [hg] at hj; cases hj
      | some x =>
          obtain ⟨hl, _⟩ := List.get?_eq_some.mp hg
          exact hl
    obtain ⟨x, hx, hxk⟩ := h2 (t + j) (by omega) hjl
    rw [hj] at hx
    injection hx with hx
    subst hx
    simpa using hxk
  rw [hc1, hc2]
  omega

theorem bs_exit_eq (arr : List Int) (key : Int) {start stop : Int}
    (h0 : 0 ≤ start) (heq : start = stop + 1) (hlen : stop < (arr.length : Int))
    (hlo : ∀ j : Nat, (j : Int) < start → j < arr.length →
      ∃ x, arr.get? j = some x ∧ x < key)
    (hhi : ∀ j : Nat, stop < (j : Int) → j < arr.length →
      ∃ x, arr.get? j = some x ∧ key < x) :
    (start, stop) = ((arr.countP (fun x => decide (x < key)) : Int),
      (arr.countP (fun x => decide (x < key)) : Int) - 1) := by
  have hcount : arr.countP (fun x => decide (x < key)) = start.toNat := by
    apply countP_eq_of_partition
    · omega
    · intro j hj
      exact hlo j (by omega) (by omega)
    · intro j hj hjlen
      obtain ⟨x, hx, hxk⟩ := hhi j (by omega) hjlen
      exact ⟨x, hx, by omega⟩
  rw [hcount]
  simp only [Prod.mk.injEq]
  omega

theorem bs_go_not_mem (arr : List Int) (key : Int) (hs : arr.Sorted (fun a b => a ≤ b))
    (hk : key ∉ arr) :
    ∀ fuel : Nat, ∀ start stop : Int, (stop + 1 - start).toNat ≤ fuel →
      0 ≤ start → start ≤ stop + 1 → stop < (arr.length : Int) →
      (∀ j : Nat, (j : Int) < start → j < arr.length →
        ∃ x, arr.get? j = some x ∧ x < key) →
      (∀ j : Nat, stop < (j : Int) → j < arr.length →
        ∃ x, arr.get? j = some x ∧ key < x) →
      bs_go arr key fuel start stop =
        ((arr.countP (fun x => decide (x < key)) : Int),
         (arr.countP (fun x => decide (x < key)) : Int) - 1) := by
  intro fuel
  induction fuel with
  | zero =>
      intro start stop hfuel h0 hs1 hlen hlo hhi
      have heq : start = stop + 1 := by omega
      simp only [bs_go]
      exact bs_exit_eq arr key h0 heq hlen hlo hhi
  | succ fuel ih =>
      intro start stop hfuel h0 hs1 hlen hlo hhi
      by_cases hloop : start ≤ stop
      · have hmid := middle_bounds hloop
        have h0m : 0 ≤ Int.fdiv (start + stop) 2 := le_trans h0 hmid.1
        have hmlen : Int.fdiv (start + stop) 2 < (arr.length : Int) :=
          lt_of_le_of_lt hmid.2 hlen
        have hmt : (Int.fdiv (start + stop) 2).toNat < arr.length := by omega
        have hget : jsGetArr arr (Int.fdiv (start + stop) 2) =
            some (arr.get ⟨(Int.fdiv (start + stop) 2).toNat, hmt⟩) := by
          simp only [jsGetArr, if_pos h0m]
          exact List.get?_eq_get hmt
        have hxne : arr.get ⟨(Int.fdiv (start + stop) 2).toNat, hmt⟩ ≠ key :=
          fun h => hk (h ▸ List.get_mem arr _ hmt)
        simp only [bs_go, if_pos hloop, hget]
        rw [if_neg hxne]
        by_cases hxk : arr.get ⟨(Int.fdiv (start + stop) 2).toNat, hmt⟩ < key
        · rw [if_pos hxk]
          refine ih (Int.fdiv (start + stop) 2 + 1) stop (by omega) (by omega) (by omega)
            hlen ?_ hhi
          intro j hj hjlen
          refine ⟨arr.get ⟨j, hjlen⟩, List.get?_eq_get hjlen, ?_⟩
          have hjm : j ≤ (Int.fdiv (start + stop) 2).toNat := by omega
          have := sorted_get_mono hs hjm hmt
          omega
        · rw [if_neg hxk]
          have hkx : key < arr.get ⟨(Int.fdiv (start + stop) 2).toNat, hmt⟩ := by
            rcases lt_trichotomy key (arr.get ⟨(Int.fdiv (start + stop) 2).toNat, hmt⟩) with
              h | h | h
            · exact h
            · exact absurd h.symm hxne
            · exact absurd h hxk
          refine ih start (Int.fdiv (start + stop) 2 - 1) (by omega) h0 (by omega)
            (by omega) hlo ?_
          intro j hj hjlen
          refine ⟨arr.get ⟨j, hjlen⟩, List.get?_eq_get hjlen, ?_⟩
          have hjm : (Int.fdiv (start + stop) 2).toNat ≤ j := by omega
          have := sorted_get_mono hs hjm hjlen
          omega
      · have heq : start = stop + 1 := by omega
        simp only [bs_go, if_neg hloop]
        exact bs_exit_eq arr key h0 heq hlen hlo hhi

theorem binary_search_not_mem (arr : List Int) (key : Int)
    (hs : arr.Sorted (fun a b => a ≤ b)) (hk : key ∉ arr) :
    binary_search arr key =
      ((arr.countP (fun x => decide (x < key)) : Int),
       (arr.countP (fun x => decide (x < key)) : Int) - 1) := by
  refine bs_go_not_mem arr key hs hk (arr.length + 1) 0 ((arr.length : Int) - 1)
    (by omega) (by omega) (by omega) (by omega) ?_ ?_
  · intro j hj hjlen
    exact absurd hj (by omega)
  · intro j hj hjlen
    exact absurd hj (by omega)

theorem getn_time_delegates (db : DB V) (ir : Option (Int × Int)) (t0 t1 : Int) :
    getn db ir (some (t0, t1)) =
      getn db (some (binary_search_index db t0 + 1, binary_search_index db t1 + 1))
        none := by
  cases ir <;> rfl

/-- C7 counterexample, refuting the claimed conversion on two counts.
Ties: on a store with created_at values 10, 20, 30, the lower boundary 20
ties a stored timestamp; the claimed conversion — the insertion point, with
ties resolving to the first matching position — yields positions (1, 2), for
which `rangeByPosition` returns the middle value, while the code leaves the
loop with `end = 2`, producing start position 3 and an empty result.
Searched sequence: with keys `"b"` (created_at 10) then `"1"` (created_at
20), `for..in` enumerates the array-index-like key `"1"` first, so the code
searches the created_at array [20, 10] — not the seq-order ascending
sequence [10, 20] the claim names — and `rangeByTime(15, 25)` returns both
values, while the positions the claim computes over the seq-order sequence
select only one. -/
theorem C7_counterexample :
    (getn (run cfg0 serLen0 (initDB 100)
        [Op.doSet 10 (JSKey.str "k0") 0, Op.doSet 20 (JSKey.str "k1") 1,
         Op.doSet 30 (JSKey.str "k2") 2]) none (some (20, 25)) = [] ∧
    claimedTimePos (insertion_times (run cfg0 serLen0 (initDB 100)
        [Op.doSet 10 (JSKey.str "k0") 0, Op.doSet 20 (JSKey.str "k1") 1,
         Op.doSet 30 (JSKey.str "k2") 2])) 20 = 1 ∧
    claimedTimePos (insertion_times (run cfg0 serLen0 (initDB 100)
        [Op.doSet 10 (JSKey.str "k0") 0, Op.doSet 20 (JSKey.str "k1") 1,
         Op.doSet 30 (JSKey.str "k2") 2])) 25 = 2 ∧
    getn (run cfg0 serLen0 (initDB 100)
        [Op.doSet 10 (JSKey.str "k0") 0, Op.doSet 20 (JSKey.str "k1") 1,
         Op.doSet 30 (JSKey.str "k2") 2]) (some (1, 2)) none = [1] ∧
    ([] : List Nat) ≠ [1]) ∧
    (insertion_times (run cfg0 serLen0 (initDB 100)
        [Op.doSet 10 (JSKey.str "b") 0, Op.doSet 20 (JSKey.str "1") 1]) = [20, 10] ∧
    seq_created_times (run cfg0 serLen0 (initDB 100)
        [Op.doSet 10 (JSKey.str "b") 0, Op.doSet 20 (JSKey.str "1") 1]) = [10, 20] ∧
    getn (run cfg0 serLen0 (initDB 100)
        [Op.doSet 10 (JSKey.str "b") 0, Op.doSet 20 (JSKey.str "1") 1])
      none (some (15, 25)) = [1, 0] ∧
    claimedTimePos (seq_created_times (run cfg0 serLen0 (initDB 100)
        [Op.doSet 10 (JSKey.str "b") 0, Op.doSet 20 (JSKey.str "1") 1])) 15 = 1 ∧
    claimedTimePos (seq_created_times (run cfg0 serLen0 (initDB 100)
        [Op.doSet 10 (JSKey.str "b") 0, Op.doSet 20 (JSKey.str "1") 1])) 25 = 2 ∧
    getn (run cfg0 serLen0 (initDB 100)
        [Op.doSet 10 (JSKey.str "b") 0, Op.doSet 20 (JSKey.str "1") 1])
      (some (1, 2)) none = [0] ∧
    ([1, 0] : List Nat) ≠ [0]) := by
  refine ⟨⟨by decide, by decide, by decide, by decide, by decide⟩,
    by decide, by decide, by decide, by decide, by decide, by decide, by decide⟩

/-- C7 amended: `rangeByTime` delegates to `rangeByPosition` the positions
`_binary_search_index(t) + 1` for the two boundaries, searching the
created_at values of the index in its `for..in` enumeration order
(array-index-like keys first, in ascending numeric order, then the others
in insertion order) — which coincides with seq order only when no
array-index-like key is present.  When that searched sequence is ascending
and a boundary equals no stored created_at, the position is the insertion
point (the number of strictly smaller timestamps); a boundary equal to a
stored created_at yields one plus the search's upper bound at the moment a
probe hits a matching element, which depends on the probe path and is
generally not the first matching position. -/
theorem C7_time_to_position (db : DB V) (ir : Option (Int × Int)) (t0 t1 : Int)
    (hs : (insertion_times db).Sorted (fun a b => a ≤ b))
    (h0 : t0 ∉ insertion_times db) (h1 : t1 ∉ insertion_times db) :
    getn db ir (some (t0, t1)) =
      getn db (some (claimedTimePos (insertion_times db) t0,
        claimedTimePos (insertion_times db) t1)) none := by
  rw [getn_time_delegates]
  have e0 : binary_search_index db t0 + 1 = claimedTimePos (insertion_times db) t0 := by
    rw [binary_search_index, binary_search_not_mem _ _ hs h0]
    simp only [claimedTimePos]
    omega
  have e1 : binary_search_index db t1 + 1 = claimedTimePos (insertion_times db) t1 := by
    rw [binary_search_index, binary_search_not_mem _ _ hs h1]
    simp only [claimedTimePos]
    omega
  rw [e0, e1]

theorem C7_witness :
    (insertion_times (run cfg0 serLen0 (initDB 100)
        [Op.doSet 10 (JSKey.str "k0") 0, Op.doSet 20 (JSKey.str "k1") 1,
         Op.doSet 30 (JSKey.str "k2") 2])).Sorted (fun a b => a ≤ b) ∧
    (15 : Int) ∉ insertion_times (run cfg0 serLen0 (initDB 100)
        [Op.doSet 10 (JSKey.str "k0") 0, Op.doSet 20 (JSKey.str "k1") 1,
         Op.doSet 30 (JSKey.str "k2") 2]) ∧
    getn (run cfg0 serLen0 (initDB 100)
        [Op.doSet 10 (JSKey.str "k0") 0, Op.doSet 20 (JSKey.str "k1") 1,
         Op.doSet 30 (JSKey.str "k2") 2]) none (some (15, 25)) =
      getn (run cfg0 serLen0 (initDB 100)
        [Op.doSet 10 (JSKey.str "k0") 0, Op.doSet 20 (JSKey.str "k1") 1,
         Op.doSet 30 (JSKey.str "k2") 2])
        (some (claimedTimePos (insertion_times (run cfg0 serLen0 (initDB 100)
            [Op.doSet 10 (JSKey.str "k0") 0, Op.doSet 20 (JSKey.str "k1") 1,
             Op.doSet 30 (JSKey.str "k2") 2])) 15,
          claimedTimePos (insertion_times (run cfg0 serLen0 (initDB 100)
            [Op.doSet 10 (JSKey.str "k0") 0, Op.doSet 20 (JSKey.str "k1") 1,
             Op.doSet 30 (JSKey.str "k2") 2])) 25)) none :=
  ⟨by decide, by decide,
   C7_time_to_position (run cfg0 serLen0 (initDB 100)
      [Op.doSet 10 (JSKey.str "k0") 0, Op.doSet 20 (JSKey.str "k1") 1,
       Op.doSet 30 (JSKey.str "k2") 2]) none 15 25 (by decide) (by decide) (by decide)⟩

/-! The startup sum check over the order index keys (C8). -/

theorem finset_gauss : ∀ (n : Nat) (s : Finset Nat), s.card = n →
    n * n ≤ 2 * s.sum id + n ∧
    (2 * s.sum id + n = n * n → s = Finset.range n) := by
  intro n
  induction n using Nat.strong_induction_on with
  | _ n ih =>
      intro s hcard
      rcases Nat.eq_zero_or_pos n with rfl | hpos
      · have hs : s = ∅ := Finset.card_eq_zero.mp hcard
        subst hs
        simp
      · obtain ⟨k, rfl⟩ : ∃ k, n = k + 1 := ⟨n - 1, by omega⟩
        have hne : s.Nonempty := Finset.card_pos.mp (by omega)
        have hmem : s.max' hne ∈ s := s.max'_mem hne
        have hsub : s ⊆ Finset.range (s.max' hne + 1) := by
          intro x hx
          rw [Finset.mem_range]
          exact Nat.lt_succ_of_le (Finset.le_max' s x hx)
        have hkm : k ≤ s.max' hne := by
          have h1 : s.card ≤ (Finset.range (s.max' hne + 1)).card := Finset.card_le_card hsub
          rw [hcard, Finset.card_range] at h1
          omega
        have htc : (s.erase (s.max' hne)).card = k := by
          rw [Finset.card_erase_of_mem hmem, hcard]
          omega
        have hts : (s.erase (s.max' hne)).sum id + s.max' hne = s.sum id :=
          Finset.sum_erase_add s id hmem
        obtain ⟨ihle, iheq⟩ := ih k (by omega) _ htc
        have hexp : (k + 1) * (k + 1) = k * k + 2 * k + 1 := by ring
        constructor
        · omega
        · intro heq
          have hmk : s.max' hne = k := by omega
          have hT : 2 * (s.erase (s.max' hne)).sum id + k = k * k := by omega
          have herange := iheq hT
          have hins : insert (s.max' hne) (s.erase (s.max' hne)) = s :=
            Finset.insert_erase hmem
          rw [← hins, herange, hmk, Finset.range_succ]

/-- C8: for an order index with `n ≥ 1` keys parsing to distinct
non-negative integers, the startup consistency check comparing the key sum
with `(n-1)·n/2` passes if and only if the keys form the contiguous range
`0..n-1`; on failure the source throws from the constructor instead of
serving (the check's boolean is the model of that gate). -/
theorem C8_rindex_check (keys : List Nat) (hnd : keys.Nodup) (hlen : 1 ≤ keys.length) :
    rindex_check keys = true ↔ keys.toFinset = Finset.range keys.length := by
  have hcard : keys.toFinset.card = keys.length := List.toFinset_card_of_nodup hnd
  have hsum : keys.toFinset.sum id = keys.sum := by
    rw [List.sum_toFinset id hnd]
    simp
  have hmain := finset_gauss keys.length keys.toFinset hcard
  rw [rindex_check, if_pos (by omega)]
  rw [decide_eq_true_eq]
  have hprod : (keys.length - 1) * keys.length + keys.length =
      keys.length * keys.length := by
    cases keys.length with
    | zero => simp
    | succ k =>
        simp only [Nat.succ_sub_one]
        ring
  have heven : ∃ r, (keys.length - 1) * keys.length = r + r := by
    have h := Nat.even_mul_succ_self (keys.length - 1)
    rw [show keys.length - 1 + 1 = keys.length by omega] at h
    obtain ⟨r, hr⟩ := h
    exact ⟨r, hr⟩
  obtain ⟨r, hr⟩ := heven
  constructor
  · intro hchk
    refine hmain.2 ?_
    omega
  · intro hset
    have h2 : keys.sum * 2 = keys.length * (keys.length - 1) := by
      rw [← hsum, hset]
      have := Finset.sum_range_id_mul_two keys.length
      simpa using this
    have hcomm : keys.length * (keys.length - 1) = (keys.length - 1) * keys.length :=
      Nat.mul_comm _ _
    omega

theorem C8_witness :
    ([1, 0, 2] : List Nat).Nodup ∧ 1 ≤ ([1, 0, 2] : List Nat).length ∧
    (rindex_check [1, 0, 2] = true ↔
      ([1, 0, 2] : List Nat).toFinset = Finset.range ([1, 0, 2] : List Nat).length) :=
  ⟨by decide, by decide, C8_rindex_check [1, 0, 2] (by decide) (by decide)⟩

/-! The filter traversal and its predicate evaluation (C9). -/

theorem filter_pass_pureEv (truthy p : V → Bool) (l acc : List V) :
    filter_pass truthy (pureEv p) l acc =
      some (acc ++ l.filter (fun v => truthy v && p v)) := by
  induction l generalizing acc with
  | nil => simp [filter_pass]
  | cons d ds ih =>
      simp only [filter_pass, pureEv]
      by_cases ht : truthy d
      · rw [if_pos ht]
        by_cases hp : p d
        · simp only [if_pos hp, ih, List.filter_cons, ht, hp, Bool.and_self,
            Bool.true_and, if_pos]
          simp
        · simp only [if_neg hp, ih, List.filter_cons, ht, hp, Bool.true_and]
          simp
      · rw [if_neg ht]
        simp only [ih, List.filter_cons, ht, Bool.false_and]
        simp

theorem filter_files_pureEv (dbfiles : List (Nat × List V)) (truthy p : V → Bool)
    (limit : Int) (names : List Nat) : ∀ (num : Int) (acc : List V),
    filter_files dbfiles truthy (pureEv p) limit names num acc =
      Except.ok (filter_spec_files dbfiles (fun v => truthy v && p v) limit names num acc) := by
  induction names with
  | nil =>
      intro num acc
      rfl
  | cons f rest ih =>
      intro num acc
      simp only [filter_files, filter_spec_files, filter_pass_pureEv]
      by_cases hl : limit ≤ num + (((jget dbfiles f).getD []).length : Int)
      · rw [if_pos hl, if_pos hl]
      · rw [if_neg hl, if_neg hl, ih]

/-- C9 amended: `filter(callback_str, limit)` traverses the cache first and
then each archived segment newest-first, stopping once the cumulative item
count has reached `limit` — but its predicate is caller-supplied text
evaluated dynamically (`eval`) against each truthy item, with unrestricted
access to the `results` accumulator, not a sandboxed typed function; an
evaluator exception makes it return an error string.  When the evaluated
code does act as a pure selecting predicate `p`, the result is exactly the
specification's typed filter over the same traversal. -/
theorem C9_filter_traversal (db : DB V) (truthy p : V → Bool) (limit : Int) :
    filter db truthy (pureEv p) limit =
      Except.ok (filter_spec db (fun v => truthy v && p v) limit) := by
  simp only [filter, filter_spec, filter_pass_pureEv, List.nil_append]
  by_cases hl : limit ≤ (db.cache.length : Int)
  · rw [if_pos hl, if_pos hl]
  · rw [if_neg hl, if_neg hl, filter_files_pureEv]

/-- C9 counterexample: evaluating the caller-supplied code `results = [999]`
(denoted by `hijackEv`) makes `filter` return the sequence `[999]`, which no
typed boolean predicate can produce on this store — the store holds only the
value 5 — so the predicate is not a sandboxed `(value) → bool` selection and
caller-supplied text is executed as code. -/
theorem C9_counterexample :
    filter (run cfg0 serLen0 (initDB 100) [Op.doSet 10 (JSKey.str "a") 5])
      (fun _ => true) hijackEv 1000 = Except.ok [999] ∧
    ∀ p : Nat → Bool,
      filter_spec (run cfg0 serLen0 (initDB 100) [Op.doSet 10 (JSKey.str "a") 5]) p 1000 ≠
        [999] := by
  constructor
  · rfl
  · intro p
    have hstate : run cfg0 serLen0 (initDB 100) [Op.doSet 10 (JSKey.str "a") 5] =
        ({ cache := [5], index := [("a", ⟨0, 100, 10⟩)], rindex := [(0, "a")],
           archive := [], files := [], cache_file_name := 100 } : DB Nat) := by
      decide
    rw [hstate]
    by_cases hp : p 5 <;>
      simp [filter_spec, filter_spec_files, getFilesNames, sortDesc, hp]

end DbJs
